import Mathlib

set_option maxRecDepth 10000

/-!
# Verification of the content-pipeline discovery/validation core

A shallow embedding, in Lean 4, of the URL-handling core of the
content-pipeline repository:

* the WHATWG-style URL model used by the JavaScript submodules
  (`new URL(...)`, `searchParams`, `toString()`), restricted to the
  fragment exercised by the code under verification: absolute
  `scheme://authority/path?query` URLs made of ASCII characters, with no
  `#`-fragment, no percent-encoding and no dot-segment normalisation
  (none of the verified code paths depend on those features);
* the validation submodules `url-format`, `path-filter`, `dedupe` and
  `lang-dedup`;
* the navigation discovery submodule's link resolver;
* the fetch-with-fallback engine;
* the submodule execute / approve / per-result approval HTTP routes,
  modelled as pure state-transition functions over an explicit datastore
  state.

Strings are modelled as lists of characters (`Str`), which makes the
character-level reasoning (parsing, lowercasing, substring search)
direct.  JavaScript `String.prototype.toLowerCase` is modelled on the
ASCII subset.
-/

/-- Strings are modelled as lists of characters. -/
abbrev Str := List Char

/-- Convert a Lean string literal to the character-list model. -/
def strOf (s : String) : Str := s.data

/-- ASCII lowercasing of one character: models JavaScript
`toLowerCase`/WHATWG host lowercasing on the ASCII subset. -/
def lowerChar (c : Char) : Char :=
  if 65 ≤ c.toNat ∧ c.toNat ≤ 90 then Char.ofNat (c.toNat + 32) else c

/-- ASCII lowercasing of a string. -/
def lowerStr (s : Str) : Str := s.map lowerChar

/-- Characters allowed in a URL scheme (ASCII letters, digits,
`+`, `-`, `.`). -/
def isSchemeChar (c : Char) : Bool :=
  (65 ≤ c.toNat ∧ c.toNat ≤ 90) ∨ (97 ≤ c.toNat ∧ c.toNat ≤ 122) ∨
  (48 ≤ c.toNat ∧ c.toNat ≤ 57) ∨ c.toNat = 43 ∨ c.toNat = 45 ∨ c.toNat = 46

/-- `a.startsWith b` on the character-list model. -/
def strStartsWith (s pre : Str) : Bool := pre.isPrefixOf s

/-- `a.endsWith b` on the character-list model. -/
def strEndsWith (s suf : Str) : Bool := suf.reverse.isPrefixOf s.reverse

/-- Longest prefix of `l` on which `p` is false, paired with the rest:
the character-level splitting primitive of the URL parser. -/
def spanNot (p : Char → Bool) : Str → Str × Str
  | [] => ([], [])
  | c :: cs =>
    if p c then ([], c :: cs)
    else
      let (a, b) := spanNot p cs
      (c :: a, b)

/-- Split a string at every occurrence of the character `sep`
(yields `n+1` parts for `n` separators, parts may be empty). -/
def splitChar (sep : Char) : Str → List Str
  | [] => [[]]
  | c :: cs =>
    if c = sep then [] :: splitChar sep cs
    else
      match splitChar sep cs with
      | [] => [[c]]
      | p :: ps => (c :: p) :: ps

/-- JavaScript `String.prototype.includes` for a nonempty needle:
substring occurrence test. -/
def strIncludes (s needle : Str) : Bool :=
  (List.range (s.length + 1)).any fun i => strStartsWith (s.drop i) needle

/-- Parsed URL: models the WHATWG `URL` object on the fragment used by
the repository (`protocol` keeps the trailing colon, `host` is the
authority component, `pathname` starts with `/`, `query` is the parsed
`searchParams` list in order). -/
structure ParsedUrl where
  protocol : Str
  host : Str
  pathname : Str
  query : List (Str × Str)
  deriving Repr, DecidableEq

/-- Parse one `k=v` query pair (split at the first `=`; a pair without
`=` gets an empty value), as `URLSearchParams` does. -/
def parseQueryPair (part : Str) : Str × Str :=
  let (k, rest) := spanNot (· = '=') part
  match rest with
  | [] => (k, [])
  | _ :: v => (k, v)

/-- Parse a raw query string into ordered key/value pairs
(`&`-separated, empty segments skipped), as `URLSearchParams` does. -/
def parseQuery (qs : Str) : List (Str × Str) :=
  ((splitChar '&' qs).filter (· ≠ [])).map parseQueryPair

/-- The query pairs determined by the remainder after the path: empty
when there is no `?`, otherwise the parse of what follows the `?`. -/
def queryOfRest : Str → List (Str × Str)
  | [] => []
  | _ :: qs => parseQuery qs

/-- Parse an absolute URL string; `none` models the `new URL(...)`
constructor throwing.  Scheme and host are lowercased during parsing,
an empty path becomes `/`, the query is split at the first `?`. -/
def parseUrl (s : Str) : Option ParsedUrl :=
  match (spanNot (· = ':') s).2 with
  | ':' :: '/' :: '/' :: rest2 =>
    if (spanNot (· = ':') s).1 ≠ [] ∧ ((spanNot (· = ':') s).1).all isSchemeChar then
      if (spanNot (fun c => c = '/' ∨ c = '?') rest2).1 = [] then none
      else
        some ⟨lowerStr (spanNot (· = ':') s).1 ++ [':'],
          lowerStr (spanNot (fun c => c = '/' ∨ c = '?') rest2).1,
          (if (spanNot (· = '?') (spanNot (fun c => c = '/' ∨ c = '?') rest2).2).1 = []
            then ['/']
            else (spanNot (· = '?') (spanNot (fun c => c = '/' ∨ c = '?') rest2).2).1),
          queryOfRest (spanNot (· = '?') (spanNot (fun c => c = '/' ∨ c = '?') rest2).2).2⟩
    else none
  | _ => none

/-- `&`-join of a list of strings. -/
def joinAmp : List Str → Str
  | [] => []
  | [x] => x
  | x :: y :: rest => x ++ '&' :: joinAmp (y :: rest)

/-- Serialise a query pair list back to a raw query string (always
`k=v` form, as `URLSearchParams.toString` renders a missing value). -/
def serializeQuery (q : List (Str × Str)) : Str :=
  joinAmp (q.map fun p => p.1 ++ '=' :: p.2)

/-- Serialise a parsed URL (models `URL.prototype.toString` after a
`searchParams` mutation: the `?` is present exactly when the parameter
list is nonempty). -/
def serializeUrl (u : ParsedUrl) : Str :=
  u.protocol ++ ['/', '/'] ++ u.host ++ u.pathname ++
    (if u.query = [] then [] else '?' :: serializeQuery u.query)

/-! ## dedupe submodule: URL normalisation (`dedupe.normalizeUrl`) -/

/-- Code-unit lexicographic order on strings, as used by JavaScript's
default comparator in `URLSearchParams.prototype.sort`. -/
def strLt : Str → Str → Bool
  | [], [] => false
  | [], _ :: _ => true
  | _ :: _, [] => false
  | a :: as, b :: bs =>
    if a.toNat < b.toNat then true
    else if b.toNat < a.toNat then false
    else strLt as bs

/-- Insert a query pair after every pair whose key is not greater:
the insertion step of a stable sort by key. -/
def insertPair (x : Str × Str) : List (Str × Str) → List (Str × Str)
  | [] => [x]
  | y :: ys => if strLt x.1 y.1 then x :: y :: ys else y :: insertPair x ys

/-- Stable sort of the query pairs by key, modelling
`URLSearchParams.prototype.sort` (which is required to be stable). -/
def sortQuery (q : List (Str × Str)) : List (Str × Str) :=
  q.foldl (fun acc x => insertPair x acc) []

/-- The fixed tracking-parameter list removed by `dedupe.normalizeUrl`. -/
def trackingParams : List Str :=
  [strOf "utm_source", strOf "utm_medium", strOf "utm_campaign",
   strOf "utm_content", strOf "utm_term", strOf "ref", strOf "fbclid",
   strOf "gclid"]

/-- Remove every query pair whose key is a tracking parameter
(`searchParams.delete` for each entry of the list). -/
def deleteTracking (q : List (Str × Str)) : List (Str × Str) :=
  q.filter fun p => ¬ trackingParams.contains p.1

/-- The single trailing-slash strip of `dedupe.normalizeUrl`:
`if (pathname.length > 1 && pathname.endsWith('/')) pathname.slice(0, -1)`. -/
def stripTrailingSlash (p : Str) : Str :=
  if p.length > 1 ∧ strEndsWith p ['/'] then p.dropLast else p

/-- `dedupe.normalizeUrl`: parse, lowercase the hostname, strip one
trailing slash (except root), delete tracking parameters, sort the
remaining parameters, and re-serialise; on a parse failure return the
lowercased input unchanged. -/
def normalizeUrl (url : Str) : Str :=
  match parseUrl url with
  | some parsed =>
    serializeUrl
      { parsed with
        host := lowerStr parsed.host
        pathname := stripTrailingSlash parsed.pathname
        query := sortQuery (deleteTracking parsed.query) }
  | none => lowerStr url

/-! ### Well-formed parsed URLs and the parse/serialise round trip -/

/-- The shape invariant every `ParsedUrl` produced by `parseUrl`
satisfies; strong enough to re-parse a serialisation. -/
structure UrlWF (u : ParsedUrl) : Prop where
  scheme : ∃ sch, u.protocol = sch ++ [':'] ∧ sch ≠ [] ∧
    sch.all isSchemeChar ∧ lowerStr sch = sch
  host_ne : u.host ≠ []
  host_chars : ∀ c ∈ u.host, ¬ (c = '/' ∨ c = '?')
  host_lower : lowerStr u.host = u.host
  path_start : ∃ rest, u.pathname = '/' :: rest
  path_no_q : ∀ c ∈ u.pathname, ¬ c = '?'
  query_wf : ∀ p ∈ u.query, (∀ c ∈ p.1, c ≠ '&' ∧ c ≠ '=') ∧ (∀ c ∈ p.2, c ≠ '&')

/-- The "not greater" relation used for sortedness of query keys. -/
def keyLe (a b : Str × Str) : Prop := ¬ strLt b.1 a.1 = true

/-! ## Validation submodules: shared data model

A `UrlRecord` carries the fields of the URL items the validation
submodules actually read: `url`, `run_entity_id` (dedupe key and
lang-dedup grouping), `discovery_method` (dedupe preference), and the
entity-website fields consulted by `path-filter`. -/

structure UrlRecord where
  url : Str
  run_entity_id : Str
  discovery_method : Str
  entity_website : Option Str
  metadata_website : Option Str
  deriving Repr, DecidableEq

/-- A rejected record: the input record (the `{...urlRecord}` spread,
stored in `base`) with the appended `reason` and `details` fields. -/
structure RejectedUrl where
  base : UrlRecord
  reason : Str
  details : Str
  deriving Repr, DecidableEq

/-- `stats` block shared by the validation submodules. -/
structure VStats where
  total : Nat
  valid_count : Nat
  invalid_count : Nat
  deriving Repr, DecidableEq

/-- Result envelope `{valid, invalid, stats}` of a validation
submodule. -/
structure VResult where
  valid : List UrlRecord
  invalid : List RejectedUrl
  stats : VStats
  deriving Repr, DecidableEq

/-- Decimal rendering of a number, for the details strings that
interpolate configuration values. -/
def strOfNat (n : Nat) : Str := Nat.toDigits 10 n

/-- JavaScript whitespace on the ASCII subset (space, tab, LF, VT, FF,
CR), for `String.prototype.trim`. -/
def isWsChar (c : Char) : Bool :=
  c.toNat = 32 ∨ c.toNat = 9 ∨ c.toNat = 10 ∨ c.toNat = 11 ∨ c.toNat = 12 ∨ c.toNat = 13

/-- `String.prototype.trim`. -/
def jsTrim (s : Str) : Str :=
  ((s.dropWhile isWsChar).reverse.dropWhile isWsChar).reverse

/-- A control character as tested by `url-format`'s
`/[\x00-\x1f\x7f]/` regular expression. -/
def isControlChar (c : Char) : Bool := c.toNat ≤ 31 ∨ c.toNat = 127

/-! ## url-format submodule (`validation/url-format.js`) -/

/-- Configuration of `url-format.execute` after destructuring defaults. -/
structure UFConfig where
  allowed_protocols : List Str
  max_url_length : Nat
  require_tld : Bool
  deriving Repr, DecidableEq

/-- The defaults of `url-format.execute`. -/
def ufDefaults : UFConfig :=
  ⟨[strOf "http:", strOf "https:"], 2048, true⟩

/-- `url-format.validateUrl`: `none` means valid, `some err` carries the
error message.  The checks mirror the source order: empty/whitespace
string, length, parseability, protocol, hostname presence, TLD,
control characters, double slash in the path.  (The IPv4 test in the
source is a no-op: it only carries a comment.) -/
def validateUrl (url : Str) (cfg : UFConfig) : Option Str :=
  if jsTrim url = [] then some (strOf "URL is empty or not a string")
  else if url.length > cfg.max_url_length then
    some (strOf "URL exceeds max length of " ++ strOfNat cfg.max_url_length)
  else
    match parseUrl url with
    | none => some (strOf "Invalid URL syntax")
    | some parsed =>
      if ¬ cfg.allowed_protocols.contains parsed.protocol then
        some (strOf "Protocol " ++ parsed.protocol ++ strOf " not allowed")
      else if parsed.host = [] then some (strOf "Missing hostname")
      else if cfg.require_tld ∧ ¬ parsed.host.contains '.' then
        some (strOf "Hostname missing TLD")
      else if url.any isControlChar then
        some (strOf "URL contains control characters")
      else if strIncludes parsed.pathname (strOf "//") then
        some (strOf "Path contains double slashes")
      else none

/-- The `valid`/`invalid` accumulation loop of `url-format.execute`. -/
def ufLoop (cfg : UFConfig) : List UrlRecord → List UrlRecord × List RejectedUrl
  | [] => ([], [])
  | r :: rest =>
    let res := ufLoop cfg rest
    match validateUrl r.url cfg with
    | none => (r :: res.1, res.2)
    | some err => (res.1, ⟨r, strOf "invalid_format", err⟩ :: res.2)

/-- `url-format.execute`. -/
def urlFormatExecute (urls : List UrlRecord) (cfg : UFConfig) : VResult :=
  let res := ufLoop cfg urls
  ⟨res.1, res.2, ⟨urls.length, res.1.length, res.2.length⟩⟩

/-! ## path-filter submodule (`validation/path-filter.js`)

Regular expressions are modelled as `{src, test}` pairs: `src` is the
pattern's `toString()` text (used in the details message) and `test` is
the matching predicate; the concrete pattern catalogue is a parameter
of the theorems, which therefore hold for every catalogue. -/

structure JsRegex where
  src : Str
  test : Str → Bool

/-- Configuration of `path-filter.execute` after building the pattern
lists (`excludeList`, `includeList`). -/
structure PFConfig where
  excludeList : List JsRegex
  includeList : List JsRegex
  same_domain_only : Bool

/-- `path-filter.extractDomain`: parse (prefixing `https://` when the
string does not start with `http`), lowercase, strip a leading
`www.`. -/
def pfExtractDomain : Option Str → Option Str
  | none => none
  | some u =>
    if u = [] then none
    else
      match parseUrl (if strStartsWith u (strOf "http") then u
        else strOf "https://" ++ u) with
      | none => none
      | some parsed =>
        let d := lowerStr parsed.host
        some (if strStartsWith d (strOf "www.") then d.drop 4 else d)

/-- `path-filter.isSameDomain`: equality or dot-separated subdomain
relation, after lowercasing and `www.`-stripping both sides. -/
def isSameDomain (domain1 domain2 : Str) : Bool :=
  let norm := fun (d : Str) =>
    let d' := lowerStr d
    if strStartsWith d' (strOf "www.") then d'.drop 4 else d'
  let d1 := norm domain1
  let d2 := norm domain2
  d1 = d2 ∨ strEndsWith d1 ('.' :: d2) ∨ strEndsWith d2 ('.' :: d1)

/-- The JavaScript `a || b` fallback on possibly-absent strings (an
empty string is falsy). -/
def strOrElse (a b : Option Str) : Option Str :=
  match a with
  | some w => if w = [] then b else some w
  | none => b

/-- `path-filter.filterUrl`: `none` means keep, `some reason` carries
the filter reason.  Include patterns override everything; then the
same-domain check; then the exclude patterns in order. -/
def filterUrl (r : UrlRecord) (cfg : PFConfig) : Option Str :=
  if cfg.includeList.any fun p => p.test r.url then none
  else
    let entityDomain := pfExtractDomain (strOrElse r.entity_website r.metadata_website)
    match entityDomain with
    | some ed =>
      match pfExtractDomain (some r.url) with
      | some ud =>
        if cfg.same_domain_only ∧ ¬ isSameDomain ud ed then
          some (strOf "Different domain: " ++ ud ++ strOf " vs " ++ ed)
        else pfExclude r.url cfg.excludeList
      | none => pfExclude r.url cfg.excludeList
    | none => pfExclude r.url cfg.excludeList
  where
    /-- First matching exclude pattern, if any. -/
    pfExclude (url : Str) : List JsRegex → Option Str
      | [] => none
      | p :: ps =>
        if p.test url then some (strOf "Matched exclude pattern: " ++ p.src)
        else pfExclude url ps

/-- The `valid`/`invalid` accumulation loop of `path-filter.execute`. -/
def pfLoop (cfg : PFConfig) : List UrlRecord → List UrlRecord × List RejectedUrl
  | [] => ([], [])
  | r :: rest =>
    let res := pfLoop cfg rest
    match filterUrl r cfg with
    | none => (r :: res.1, res.2)
    | some reason => (res.1, ⟨r, strOf "filtered_path", reason⟩ :: res.2)

/-- `path-filter.execute`. -/
def pathFilterExecute (urls : List UrlRecord) (cfg : PFConfig) : VResult :=
  let res := pfLoop cfg urls
  ⟨res.1, res.2, ⟨urls.length, res.1.length, res.2.length⟩⟩

/-! ## dedupe submodule (`lang-dedup`/`dedupe` source file, `dedupe.execute`) -/

/-- Configuration of `dedupe.execute` after destructuring defaults. -/
structure DedupeConfig where
  dedupe_across_entities : Bool
  prefer_discovery_method : Option Str
  deriving Repr, DecidableEq

/-- `dedupe.normalizeUrl` applied and combined with the dedupe key:
`url` when deduping across entities, else `run_entity_id:url`. -/
def dedupeKey (cfg : DedupeConfig) (r : UrlRecord) : Str :=
  if cfg.dedupe_across_entities then normalizeUrl r.url
  else r.run_entity_id ++ ':' :: normalizeUrl r.url

/-- The stable preference sort of `dedupe.execute`: JavaScript's
`Array.prototype.sort` is stable, and sorting by the two-valued key
`(preferred ? 0 : 1)` therefore moves every preferred record (in
order) in front of every non-preferred record (in order). -/
def sortByPreference (urls : List UrlRecord) : Option Str → List UrlRecord
  | none => urls
  | some m =>
    urls.filter (fun r => r.discovery_method = m) ++
      urls.filter (fun r => ¬ r.discovery_method = m)

/-- The first-wins dedupe loop over the (possibly re-ordered) records;
`seen` maps dedupe keys to the first record that claimed them. -/
def dedupeLoop (cfg : DedupeConfig) :
    List UrlRecord → List (Str × UrlRecord) → List UrlRecord × List RejectedUrl
  | [], _ => ([], [])
  | r :: rest, seen =>
    let key := dedupeKey cfg r
    match seen.lookup key with
    | some original =>
      let res := dedupeLoop cfg rest seen
      (res.1, ⟨r, strOf "duplicate",
        strOf "Duplicate of URL discovered via " ++ original.discovery_method⟩ :: res.2)
    | none =>
      let res := dedupeLoop cfg rest ((key, r) :: seen)
      (r :: res.1, res.2)

/-- `dedupe.execute` (the `duplicate_count` stat of the source equals
`invalid_count` and is omitted). -/
def dedupeExecute (urls : List UrlRecord) (cfg : DedupeConfig) : VResult :=
  let res := dedupeLoop cfg (sortByPreference urls cfg.prefer_discovery_method) []
  ⟨res.1, res.2, ⟨urls.length, res.1.length, res.2.length⟩⟩

/-! ## lang-dedup submodule (`lang-dedup.execute`) -/

/-- A URL record annotated with the extracted language and slug
(`{...urlRecord, _extracted_language, _extracted_slug}`). -/
structure LangRecord where
  base : UrlRecord
  lang : Option Str
  slug : Str
  deriving Repr, DecidableEq

/-- A lang-dedup rejection: the annotated record with appended
`reason`/`details`. -/
structure LangRejected where
  item : LangRecord
  reason : Str
  details : Str
  deriving Repr, DecidableEq

/-- `stats` block of `lang-dedup.execute`. -/
structure LDStats where
  total : Nat
  valid_count : Nat
  invalid_count : Nat
  groups_processed : Nat
  translations_filtered : Nat
  deriving Repr, DecidableEq

/-- Result envelope of `lang-dedup.execute`. -/
structure LDResult where
  valid : List LangRecord
  invalid : List LangRejected
  stats : LDStats
  deriving Repr, DecidableEq

/-- The default language preference order of `lang-dedup`. -/
def defaultLanguagePreference : List Str :=
  [strOf "en", strOf "de", strOf "sv", strOf "es", strOf "pt", strOf "fr",
   strOf "it", strOf "nl", strOf "pl", strOf "ja", strOf "ko", strOf "zh",
   strOf "ru"]

def isAsciiLetter (c : Char) : Bool :=
  (65 ≤ c.toNat ∧ c.toNat ≤ 90) ∨ (97 ≤ c.toNat ∧ c.toNat ≤ 122)

/-- `lang-dedup.normalizeSlug`: lowercase, strip all trailing slashes,
collapse a leading run of slashes to one. -/
def normalizeSlug (slug : Str) : Str :=
  let s1 := (lowerStr slug).reverse.dropWhile (· = '/') |>.reverse
  match s1 with
  | '/' :: rest => '/' :: rest.dropWhile (· = '/')
  | _ => s1

/-- The anchored language-prefix pattern
`/^\/([a-z]{2}(?:-[a-z]{2})?)\//i`: a leading two-letter (optionally
region-qualified) segment followed by `/`.  Returns the lowercased
primary language code and the pathname with the matched prefix
replaced by `/`. -/
def langOfPath : Str → Option (Str × Str)
  | '/' :: a :: b :: '/' :: rest =>
    if isAsciiLetter a ∧ isAsciiLetter b then
      some ([lowerChar a, lowerChar b], '/' :: rest)
    else none
  | '/' :: a :: b :: '-' :: c :: d :: '/' :: rest =>
    if isAsciiLetter a ∧ isAsciiLetter b ∧ isAsciiLetter c ∧ isAsciiLetter d then
      some ([lowerChar a, lowerChar b], '/' :: rest)
    else none
  | _ => none

/-- `lang-dedup.extractLanguageAndSlug`. -/
def extractLanguageAndSlug (url : Str) : Option Str × Str :=
  match parseUrl url with
  | none => (none, url)
  | some parsed =>
    match langOfPath parsed.pathname with
    | some (language, slugPath) => (some language, normalizeSlug slugPath)
    | none => (none, normalizeSlug parsed.pathname)

/-- Slug groups of one entity, in first-insertion order (models the
inner `Map<slug, URL[]>`). -/
abbrev SlugGroups := List (Str × List LangRecord)

/-- Entity groups, in first-insertion order (models the outer
`Map<entity_id, Map<slug, URL[]>>`). -/
abbrev EntityGroups := List (Str × SlugGroups)

def addToSlugGroups (slug : Str) (x : LangRecord) : SlugGroups → SlugGroups
  | [] => [(slug, [x])]
  | (s, g) :: rest =>
    if s = slug then (s, g ++ [x]) :: rest
    else (s, g) :: addToSlugGroups slug x rest

def addToEntityGroups (eid : Str) (slug : Str) (x : LangRecord) :
    EntityGroups → EntityGroups
  | [] => [(eid, [(slug, [x])])]
  | (e, sgs) :: rest =>
    if e = eid then (e, addToSlugGroups slug x sgs) :: rest
    else (e, sgs) :: addToEntityGroups eid slug x rest

/-- The grouping pass of `lang-dedup.execute`: annotate each record and
group by entity, then slug. -/
def buildGroups (urls : List UrlRecord) : EntityGroups :=
  urls.foldl
    (fun egs r =>
      let ls := extractLanguageAndSlug r.url
      addToEntityGroups r.run_entity_id ls.2 ⟨r, ls.1, ls.2⟩ egs)
    []

/-- The alphabetical-fallback key: the language code, or `zzz` when
absent. -/
def langKey (u : LangRecord) : Str :=
  match u.lang with
  | some l => l
  | none => strOf "zzz"

/-- Index of the first element with minimal `langKey` (what a stable
sort by `langKey` puts first). -/
def argminLangIdx : List LangRecord → Nat
  | [] => 0
  | [_] => 0
  | x :: y :: rest =>
    let j := argminLangIdx (y :: rest)
    match (y :: rest).get? j with
    | some m => if strLt (langKey m) (langKey x) then j + 1 else 0
    | none => 0

/-- Index of the first record in the group whose language is `lang`
(`urlGroup.find(u => u._extracted_language === lang)`). -/
def findLangIdx (g : List LangRecord) (lang : Str) : Option Nat :=
  g.findIdx? fun u => u.lang = some lang

/-- Walk the preference list in order, returning the index of the
first match. -/
def prefIdx (g : List LangRecord) : List Str → Option Nat
  | [] => none
  | l :: ls =>
    match findLangIdx g l with
    | some i => some i
    | none => prefIdx g ls

/-- `lang-dedup.selectCanonical`, by position in the group (JavaScript
compares the canonical by object identity, which position models
exactly). -/
def selectCanonicalIdx (g : List LangRecord) (pref : List Str) (fallback : Str) : Nat :=
  match prefIdx g pref with
  | some i => i
  | none => if fallback = strOf "alphabetical" then argminLangIdx g else 0

/-- The `canonical._extracted_language || 'unknown'` fragment of the
details message. -/
def langOrUnknown : Option Str → Str
  | some l => if l = [] then strOf "unknown" else l
  | none => strOf "unknown"

/-- Split one multi-member group at the canonical index: the canonical
record is kept, every other member is rejected as a translation of
it. -/
def groupSplit (canonical : LangRecord) :
    List LangRecord → Nat → Nat → List LangRecord × List LangRejected
  | [], _, _ => ([], [])
  | u :: rest, i, ci =>
    let res := groupSplit canonical rest (i + 1) ci
    if i = ci then (u :: res.1, res.2)
    else
      (res.1, ⟨u, strOf "language_duplicate",
        strOf "Translation of " ++ canonical.base.url ++ strOf " (" ++
          langOrUnknown canonical.lang ++ strOf ")"⟩ :: res.2)

/-- Process one slug group: singletons are kept unconditionally,
larger groups keep only the canonical member. -/
def processSlugGroup (pref : List Str) (fb : Str) (g : List LangRecord) :
    List LangRecord × List LangRejected :=
  match g with
  | [x] => ([x], [])
  | _ =>
    let ci := selectCanonicalIdx g pref fb
    match g[ci]? with
    | some canonical => groupSplit canonical g 0 ci
    | none => (g, [])

def processSlugGroups (pref : List Str) (fb : Str) :
    SlugGroups → List LangRecord × List LangRejected
  | [] => ([], [])
  | (_, g) :: rest =>
    let r1 := processSlugGroup pref fb g
    let r2 := processSlugGroups pref fb rest
    (r1.1 ++ r2.1, r1.2 ++ r2.2)

def processEntityGroups (pref : List Str) (fb : Str) :
    EntityGroups → List LangRecord × List LangRejected
  | [] => ([], [])
  | (_, sgs) :: rest =>
    let r1 := processSlugGroups pref fb sgs
    let r2 := processEntityGroups pref fb rest
    (r1.1 ++ r2.1, r1.2 ++ r2.2)

/-- `lang-dedup.execute`. -/
def langDedupExecute (urls : List UrlRecord) (pref : List Str) (fb : Str) : LDResult :=
  let egs := buildGroups urls
  let res := processEntityGroups pref fb egs
  ⟨res.1, res.2,
    ⟨urls.length, res.1.length, res.2.length,
      (egs.map fun eg => eg.2.length).sum, res.2.length⟩⟩

/-! ## Fetch-with-fallback engine (`fetchWithFallback` / `fetchWithBrowser`)

The two effectful primitives are modelled as oracles: `direct` is the
outcome of the plain `fetch` (exception or response), and `browser n`
is the outcome of the `n`-th Playwright page load (0-indexed; the
source makes at most two).  `fetchWithFallback` returns the result
together with the number of browser attempts made. -/

/-- A direct-fetch response (`response.status`, `response.text()`,
`response.url`). -/
structure FetchResponse where
  status : Nat
  body : Str
  url : Str
  deriving Repr, DecidableEq

/-- A successful browser page load (`page.content()`,
`response?.status() || 200`, `page.url()`). -/
structure BrowserPage where
  content : Str
  status : Nat
  url : Str
  deriving Repr, DecidableEq

/-- The result contract `{content, status, url, usedBrowser}`. -/
structure FetchResult where
  content : Str
  status : Nat
  url : Str
  usedBrowser : Bool
  deriving Repr, DecidableEq

/-- `fetchWithBrowser`: wraps a page-load outcome into the result
contract, always setting `usedBrowser := true` (an exception
propagates). -/
def fetchWithBrowser (page : Except Str BrowserPage) : Except Str FetchResult :=
  page.map fun p => ⟨p.content, p.status, p.url, true⟩

/-- The block-signal test of `fetchWithFallback` on a direct response
(status 403/429/503, known bot-protection markers in the lowercased
body, or a short body claiming "blocked"). -/
def isBlocked (resp : FetchResponse) : Bool :=
  let lowerContent := lowerStr resp.body
  resp.status = 403 ∨ resp.status = 429 ∨ resp.status = 503 ∨
  strIncludes lowerContent (strOf "captcha") ∨
  strIncludes lowerContent (strOf "cloudflare") ∨
  strIncludes lowerContent (strOf "please enable javascript") ∨
  strIncludes lowerContent (strOf "browser check") ∨
  strIncludes lowerContent (strOf "ddos protection") ∨
  (resp.body.length < 1000 ∧ strIncludes lowerContent (strOf "blocked"))

/-- `fetchWithFallback`.  The whole direct path, including the
`return await fetchWithBrowser(...)` escalation on a block signal, sits
inside one `try`; the `catch` makes a (second) browser attempt.  The
returned `Nat` counts browser attempts. -/
def fetchWithFallback :
    Except Str FetchResponse → (Nat → Except Str BrowserPage) →
      Except Str FetchResult × Nat
  | .ok resp, browser =>
    if isBlocked resp then
      match fetchWithBrowser (browser 0) with
      | .ok r => (.ok r, 1)
      | .error _ =>
        -- the escalation threw inside the `try`: the catch retries
        (fetchWithBrowser (browser 1), 2)
    else
      (.ok ⟨resp.body, resp.status, resp.url, false⟩, 0)
  | .error _, browser =>
    -- the direct fetch itself threw: the catch makes one browser attempt
    (fetchWithBrowser (browser 0), 1)

/-! ## Navigation discovery: link resolver (`navigation._resolveUrl`)

`new URL(href, base)` is modelled by `resolveHref`: absolute hrefs
parse directly; root-relative and path-relative hrefs resolve against
the base (dot-segment normalisation is outside the modelled fragment,
as no verified property depends on it). -/

/-- Resolve `href` against `base` (`new URL(href, base)`). -/
def resolveHref (href base : Str) : Option ParsedUrl :=
  match parseUrl href with
  | some u => some u
  | none =>
    match parseUrl base with
    | none => none
    | some b =>
      if strStartsWith href (strOf "//") then
        parseUrl (b.protocol ++ href)
      else if strStartsWith href (strOf "/") then
        let (path, q) := spanNot (· = '?') href
        some ⟨b.protocol, b.host, (if path = [] then ['/'] else path), queryOfRest q⟩
      else
        let dir := (spanNot (· = '/') b.pathname.reverse).2.reverse
        let (path, q) := spanNot (· = '?') (dir ++ href)
        some ⟨b.protocol, b.host, (if path = [] then ['/'] else path), queryOfRest q⟩

/-- The `skipPaths` catalogue of `navigation._resolveUrl`. -/
def navSkipPaths : List Str :=
  [strOf "/login", strOf "/logout", strOf "/signup", strOf "/register",
   strOf "/cart", strOf "/checkout", strOf "/search", strOf "/api/",
   strOf "/cdn-cgi/", strOf "/wp-admin"]

/-- The `skipExts` catalogue of `navigation._resolveUrl`. -/
def navSkipExts : List Str :=
  [strOf ".pdf", strOf ".jpg", strOf ".jpeg", strOf ".png", strOf ".gif",
   strOf ".svg", strOf ".webp", strOf ".zip", strOf ".css", strOf ".js",
   strOf ".xml"]

/-- `navigation._resolveUrl`: discard falsy hrefs, same-page anchors and
the three non-http schemes; resolve; keep only hostnames passing the
raw suffix test `hostname.endsWith(domain) || domain.endsWith(hostname)`;
skip the non-content path prefixes and non-document extensions. -/
def navResolveUrl (href base domain : Str) : Option Str :=
  if href = [] then none
  else if strStartsWith href (strOf "#") ∨ strStartsWith href (strOf "javascript:") ∨
      strStartsWith href (strOf "mailto:") ∨ strStartsWith href (strOf "tel:") then none
  else
    match resolveHref href base with
    | none => none
    | some r =>
      if ¬ strEndsWith r.host domain ∧ ¬ strEndsWith domain r.host then none
      else if navSkipPaths.any fun p => strStartsWith (lowerStr r.pathname) p then none
      else if navSkipExts.any fun e => strEndsWith (lowerStr r.pathname) e then none
      else some (serializeUrl r)

/-- One extracted navigation link `{url, location}`. -/
structure NavLink where
  url : Str
  location : Str
  deriving Repr, DecidableEq

/-- The collection loop of `navigation._extractNavLinks` over the
flattened `(href, area)` stream produced by the DOM queries (the DOM
itself is the oracle): cap, resolve, dedupe by resolved URL. -/
def navLoop (domain : Str) (maxUrls : Nat) :
    List (Str × Str) → List Str → Nat → List NavLink
  | [], _, _ => []
  | (href, area) :: rest, seen, count =>
    if count ≥ maxUrls then []
    else
      match navResolveUrl href (strOf "https://" ++ domain) domain with
      | some resolved =>
        if seen.contains resolved then navLoop domain maxUrls rest seen count
        else ⟨resolved, area⟩ :: navLoop domain maxUrls rest (resolved :: seen) (count + 1)
      | none => navLoop domain maxUrls rest seen count

/-- `navigation._extractNavLinks`, URL collection part. -/
def extractNavLinks (hrefs : List (Str × Str)) (domain : Str) (maxUrls : Nat) :
    List NavLink :=
  navLoop domain maxUrls hrefs [] 0

/-- The spec's notion of subdomain compatibility: equality or a
dot-separated subdomain relation (in either direction).
Modelled from the spec: "off-domain links (unless
subdomain-compatible)" — this is the comparison definition the
resolver is checked against, not code of the repository. -/
def subdomainCompatible (host domain : Str) : Bool :=
  host = domain ∨ strEndsWith host ('.' :: domain) ∨ strEndsWith domain ('.' :: host)

/-! ## Submodule routes: approve / per-result approval / execute

The HTTP handlers of the submodule routes file are modelled as pure
state-transition functions: the datastore tables they touch are
explicit values, generated identifiers and timestamps are parameters,
and each handler returns its JSON response together with the new
state. -/

/-- One element of a stored `results` array, with the fields the routes
read (`url`, `entity_id`, `run_entity_id`, `entity_name`). -/
structure ResultItem where
  url : Str
  entity_id : Option Str
  run_entity_id : Option Str
  entity_name : Option Str
  deriving Repr, DecidableEq

/-- One `submodule_result_approvals` row. -/
structure ApprovalRow where
  id : Str
  submodule_run_id : Str
  result_index : Nat
  result_url : Option Str
  result_entity_id : Option Str
  result_entity_name : Option Str
  status : Str
  rejection_reason : Option Str
  decided_at : Option Str
  deriving Repr, DecidableEq

/-- One `submodule_runs` row (the fields the routes read or write). -/
structure SubRunRec where
  id : Str
  run_id : Str
  submodule_type : Str
  submodule_name : Str
  status : Str
  approved_count : Option Nat
  rejected_count : Option Nat
  results : List ResultItem
  run_entity_ids : List Str
  approved_at : Option Str
  deriving Repr, DecidableEq

/-- One `discovered_urls` row as written by the approve route. -/
structure DiscoveredUrl where
  run_entity_id : Str
  url : Str
  discovery_method : Str
  priority : Nat
  status : Str
  created_at : Str
  deriving Repr, DecidableEq

/-- `createApprovalRecords`: one pending row per flattened result, with
`result_index` the position in the flattened array; zero rows for an
empty result set. -/
def createApprovalRecords (submoduleRunId : Str) (results : List ResultItem)
    (now : Str) : List ApprovalRow :=
  (results.enum).map fun ir =>
    ⟨submoduleRunId ++ ':' :: strOfNat ir.1, submoduleRunId, ir.1,
      some ir.2.url, ir.2.run_entity_id, ir.2.entity_name,
      strOf "pending", none, some now⟩

/-! ### POST .../approve -/

/-- The JSON body of the approve response (`already_approved` is absent
— modelled `false` — on the fresh-approval path). -/
structure ApproveResponse where
  approved : Bool
  urls_saved : Nat
  already_approved : Bool
  deriving Repr, DecidableEq

/-- The `entity_id → run_entity_id` map built from the run's entity
snapshots; a later row with the same snapshot id overwrites an earlier
one, which prepending models. -/
def entityToRunEntityMap (runEntities : List (Str × Option Str)) :
    List (Str × Str) :=
  runEntities.foldl
    (fun m re =>
      match re.2 with
      | some eid => (eid, re.1) :: m
      | none => m)
    []

/-- The `urlRecords` built by the approve route: each saved result is
associated with its entity's `run_entity_id` when resolvable, falling
back to the run's first `run_entity_id`. -/
def buildUrlRecords (subRun : SubRunRec) (urlsToSave : List ResultItem)
    (entityMap : List (Str × Str)) (now : Str) : List DiscoveredUrl :=
  urlsToSave.map fun item =>
    let fallback := subRun.run_entity_ids.headD []
    let target :=
      match item.entity_id with
      | some eid =>
        match entityMap.lookup eid with
        | some reid => reid
        | none => fallback
      | none => fallback
    ⟨target, item.url, subRun.submodule_name, 0, strOf "pending", now⟩

/-- The `upsert(..., { onConflict: 'run_entity_id,url', ignoreDuplicates: true })`
write: a record is appended only when its key is not yet present. -/
def upsertIgnore (existing : List DiscoveredUrl) (records : List DiscoveredUrl) :
    List DiscoveredUrl :=
  records.foldl
    (fun acc r =>
      if acc.any fun e => e.run_entity_id = r.run_entity_id ∧ e.url = r.url then acc
      else acc ++ [r])
    existing

/-- `POST /runs/:runId/:submoduleRunId/approve` on a found run: the
idempotency guard answers an already-approved run without writes;
otherwise the selected results are promoted into `discovered_urls` and
the run is marked approved with `approved_count` = number saved. -/
def approveRoute (subRun : SubRunRec) (selected_urls : Option (List Str))
    (runEntities : List (Str × Option Str)) (discovered : List DiscoveredUrl)
    (now : Str) : ApproveResponse × SubRunRec × List DiscoveredUrl :=
  if subRun.status = strOf "approved" then
    (⟨true, subRun.approved_count.getD 0, true⟩, subRun, discovered)
  else
    let urlsToSave :=
      match selected_urls with
      | some sel =>
        if sel ≠ [] then subRun.results.filter fun r => sel.contains r.url
        else subRun.results
      | none => subRun.results
    let discovered' :=
      if urlsToSave ≠ [] ∧ subRun.run_entity_ids ≠ [] then
        upsertIgnore discovered
          (buildUrlRecords subRun urlsToSave (entityToRunEntityMap runEntities) now)
      else discovered
    let subRun' := { subRun with
      status := strOf "approved"
      approved_at := some now
      approved_count := some urlsToSave.length }
    (⟨true, urlsToSave.length, false⟩, subRun', discovered')

/-! ### PATCH .../results/:approvalId and POST .../batch-approval -/

/-- The `{pending, approved, rejected}` summary computed from the
approval rows of one submodule run. -/
structure ApprovalSummary where
  pending : Nat
  approved : Nat
  rejected : Nat
  deriving Repr, DecidableEq

def summarize (rows : List ApprovalRow) : ApprovalSummary :=
  ⟨rows.countP (fun r => r.status = strOf "pending"),
   rows.countP (fun r => r.status = strOf "approved"),
   rows.countP (fun r => r.status = strOf "rejected")⟩

/-- Response of the single-result PATCH handler. -/
inductive PatchResp where
  | badRequest
  | notFound
  | ok (status : Str) (summary : ApprovalSummary)
  deriving Repr, DecidableEq

/-- `PATCH /runs/:runId/:submoduleRunId/results/:approvalId`: updates
the one approval row and reports the fresh summary; the run-level
record is not touched. -/
def patchResultRoute (rows : List ApprovalRow) (subRun : SubRunRec)
    (approvalId : Str) (action : Str) (reason : Option Str) (now : Str) :
    PatchResp × List ApprovalRow × SubRunRec :=
  if ¬ (action = strOf "approve" ∨ action = strOf "reject") then
    (.badRequest, rows, subRun)
  else
    let status := if action = strOf "approve" then strOf "approved" else strOf "rejected"
    if ¬ rows.any fun r => r.id = approvalId ∧ r.submodule_run_id = subRun.id then
      (.notFound, rows, subRun)
    else
      let rows' := rows.map fun r =>
        if r.id = approvalId ∧ r.submodule_run_id = subRun.id then
          { r with
            status := status
            rejection_reason := if action = strOf "reject" then reason else none
            decided_at := some now }
        else r
      (.ok status (summarize (rows'.filter fun r => r.submodule_run_id = subRun.id)),
        rows', subRun)

/-- One entry of the `approvals` array of the batch body. -/
structure BatchDecision where
  result_id : Str
  action : Str
  reason : Option Str
  deriving Repr, DecidableEq

/-- Response of the batch-approval handler. -/
inductive BatchResp where
  | badRequest
  | ok (submodule_status : Str) (summary : ApprovalSummary)
  deriving Repr, DecidableEq

def applyDecision (subRunId : Str) (now : Str) (rows : List ApprovalRow)
    (d : BatchDecision) : List ApprovalRow :=
  let status := if d.action = strOf "approve" then strOf "approved" else strOf "rejected"
  rows.map fun r =>
    if r.id = d.result_id ∧ r.submodule_run_id = subRunId then
      { r with
        status := status
        rejection_reason := if d.action = strOf "reject" then d.reason else none
        decided_at := some now }
    else r

/-- `POST /runs/:runId/:submoduleRunId/batch-approval` on a found run:
validates the decisions, applies each, then derives the run-level
status from the fresh summary — `approved` when no row is pending,
`partial` otherwise. -/
def batchApprovalRoute (subRun : SubRunRec) (rows : List ApprovalRow)
    (decisions : List BatchDecision) (now : Str) :
    BatchResp × List ApprovalRow × SubRunRec :=
  if decisions = [] then (.badRequest, rows, subRun)
  else if decisions.any (fun d =>
      d.result_id = [] ∨ ¬ (d.action = strOf "approve" ∨ d.action = strOf "reject")) then
    (.badRequest, rows, subRun)
  else
    let rows' := decisions.foldl (applyDecision subRun.id now) rows
    let summary := summarize (rows'.filter fun r => r.submodule_run_id = subRun.id)
    let newStatus := if summary.pending = 0 then strOf "approved" else strOf "partial"
    let subRun' := { subRun with
      status := newStatus
      approved_count := some summary.approved
      rejected_count := some summary.rejected
      approved_at := if summary.pending = 0 then some now else none }
    (.ok newStatus summary, rows', subRun')

/-! ### POST /:type/:name/execute -/

/-- An entity object supplied in the request body. -/
structure EntityIn where
  id : Option Str
  name : Option Str
  entity_name : Option Str
  website : Option Str
  deriving Repr, DecidableEq

/-- One `run_entities` row (the snapshot fields the route uses). -/
structure RunEntityRow where
  id : Str
  run_id : Str
  snap_id : Option Str
  snap_name : Option Str
  snap_website : Option Str
  deriving Repr, DecidableEq

/-- The datastore tables the execute route touches. -/
structure Db where
  pipeline_runs : List Str
  run_entities : List RunEntityRow
  submodule_runs : List SubRunRec
  approvals : List ApprovalRow
  deriving Repr, DecidableEq

/-- The request body fields the execute route destructures. -/
structure ExecReq where
  run_id : Option Str
  run_entity_ids : Option (List Str)
  entities : Option (List EntityIn)
  project_id : Option Str
  deriving Repr, DecidableEq

/-- Response of the execute route. -/
inductive ExecResp where
  | badRequest
  | notFound
  | serverError
  | ok (preview_mode : Bool) (status : Str) (result_count : Nat)
      (submodule_run_id : Str)
  deriving Repr, DecidableEq

/-- `new URL(w.startsWith('http') ? w : 'https://' + w).hostname`
(`none` models the constructor throwing). -/
def urlHostname (w : Str) : Option Str :=
  (parseUrl (if strStartsWith w (strOf "http") then w else strOf "https://" ++ w)).map
    (·.host)

/-- Does the JavaScript truthiness test `e.website ?` pass? -/
def websitePresent (e : EntityIn) : Bool :=
  match e.website with
  | some w => w ≠ []
  | none => false

/-- Mode 2 throws (outside any local catch) when an entity's website is
present but unparseable. -/
def mode2Throws (es : List EntityIn) : Bool :=
  es.any fun e =>
    websitePresent e &&
      (match e.website with
        | some w => (urlHostname w).isNone
        | none => false)

/-- Fresh identifiers and the clock, supplied by the environment. -/
structure ExecIds where
  newRunId : Str
  newRunEntityIds : List Str
  submoduleRunId : Str
  now : Str
  deriving Repr, DecidableEq

/-- `POST /api/submodules/:type/:name/execute`, modelled from input
resolution to persistence.  The three modes are checked in the source
order: (1) `project_id` present, no `run_id`, nonempty `entities` —
auto-create a pipeline run and entity snapshots; (2) nonempty
`entities` — preview mode (the body's `run_id` is **not** cleared);
(3) `run_id` plus nonempty `run_entity_ids` — load snapshots.  The
submodule invocation itself is the `execOutcome` oracle (`.error` is a
caught exception).  Persistence of the result envelope and the approval
rows happens whenever the local `run_id` is set. -/
def executeRoute (req : ExecReq) (stype sname : Str)
    (execOutcome : Except Str (List ResultItem)) (ids : ExecIds) (db : Db) :
    ExecResp × Db :=
  -- input resolution
  let mode1 : Bool := req.project_id.isSome && req.run_id.isNone &&
    (match req.entities with | some es => !es.isEmpty | none => false)
  let mode2 : Bool := match req.entities with | some es => !es.isEmpty | none => false
  let mode3 : Bool := req.run_id.isSome &&
    (match req.run_entity_ids with | some l => !l.isEmpty | none => false)
  if mode1 then
    -- auto-create pipeline run + run_entities, then persist after execution
    let es := req.entities.getD []
    let newRows := (es.enum).map fun ie =>
      ⟨(ids.newRunEntityIds.drop ie.1).headD [], ids.newRunId,
        some (ie.2.id.getD (strOf "entity-" ++ strOfNat ie.1)),
        some ((strOrElse ie.2.name ie.2.entity_name).getD (strOf "Unknown")),
        ie.2.website⟩
    let db1 : Db := { db with
      pipeline_runs := db.pipeline_runs ++ [ids.newRunId]
      run_entities := db.run_entities ++ newRows }
    let status := match execOutcome with | .ok _ => strOf "completed" | .error _ => strOf "failed"
    let results := match execOutcome with | .ok rs => rs | .error _ => []
    let runRec : SubRunRec := ⟨ids.submoduleRunId, ids.newRunId, stype, sname,
      status, none, none, results, newRows.map (·.id), none⟩
    let db2 : Db := { db1 with
      submodule_runs := db1.submodule_runs ++ [runRec]
      approvals := db1.approvals ++
        createApprovalRecords ids.submoduleRunId results ids.now }
    (.ok false status results.length ids.submoduleRunId, db2)
  else if mode2 then
    -- preview mode; `run_id` keeps whatever the body supplied
    let es := req.entities.getD []
    if mode2Throws es then (.serverError, db)
    else
      let status := match execOutcome with | .ok _ => strOf "completed" | .error _ => strOf "failed"
      let results := match execOutcome with | .ok rs => rs | .error _ => []
      match req.run_id with
      | some rid =>
        let runRec : SubRunRec := ⟨ids.submoduleRunId, rid, stype, sname,
          status, none, none, results, req.run_entity_ids.getD [], none⟩
        let db' : Db := { db with
          submodule_runs := db.submodule_runs ++ [runRec]
          approvals := db.approvals ++
            createApprovalRecords ids.submoduleRunId results ids.now }
        (.ok true status results.length ids.submoduleRunId, db')
      | none =>
        (.ok true status results.length ids.submoduleRunId, db)
  else if mode3 then
    let wanted := req.run_entity_ids.getD []
    let rows := db.run_entities.filter fun re => wanted.contains re.id
    if rows = [] then (.notFound, db)
    else
      let status := match execOutcome with | .ok _ => strOf "completed" | .error _ => strOf "failed"
      let results := match execOutcome with | .ok rs => rs | .error _ => []
      match req.run_id with
      | some rid =>
        let runRec : SubRunRec := ⟨ids.submoduleRunId, rid, stype, sname,
          status, none, none, results, wanted, none⟩
        let db' : Db := { db with
          submodule_runs := db.submodule_runs ++ [runRec]
          approvals := db.approvals ++
            createApprovalRecords ids.submoduleRunId results ids.now }
        (.ok false status results.length ids.submoduleRunId, db')
      | none => (.badRequest, db)
  else (.badRequest, db)

/-! ### lang-dedup partition lemmas -/

/-- Total number of records held in a slug-group map. -/
def sizeSG (sgs : SlugGroups) : Nat := (sgs.map fun sg => sg.2.length).sum

/-- Total number of records held in an entity-group map. -/
def sizeEG (egs : EntityGroups) : Nat := (egs.map fun eg => sizeSG eg.2).sum

/-! ## Theorems -/

theorem char_eq_of_toNat_eq {c d : Char} (h : c.toNat = d.toNat) : c = d :=
  Char.eq_of_val_eq (UInt32.toNat.inj h)

theorem toNat_ofNat_add32 {n : Nat} (h1 : 65 ≤ n) (h2 : n ≤ 90) :
    (Char.ofNat (n + 32)).toNat = n + 32 := by
  interval_cases n <;> decide

/-- The numeric behaviour of `lowerChar`. -/
theorem lowerChar_toNat (c : Char) :
    (lowerChar c).toNat =
      if 65 ≤ c.toNat ∧ c.toNat ≤ 90 then c.toNat + 32 else c.toNat := by
  unfold lowerChar
  split <;> rename_i h
  · exact toNat_ofNat_add32 h.1 h.2
  · rfl

theorem lowerChar_of_not_upper {c : Char} (h : ¬ (65 ≤ c.toNat ∧ c.toNat ≤ 90)) :
    lowerChar c = c := by
  unfold lowerChar; rw [if_neg h]

theorem lowerChar_idem (c : Char) : lowerChar (lowerChar c) = lowerChar c := by
  by_cases h : 65 ≤ c.toNat ∧ c.toNat ≤ 90
  · apply lowerChar_of_not_upper
    rw [lowerChar_toNat, if_pos h]
    omega
  · rw [lowerChar_of_not_upper h, lowerChar_of_not_upper h]

theorem lowerStr_idem (s : Str) : lowerStr (lowerStr s) = lowerStr s := by
  unfold lowerStr
  rw [List.map_map]
  exact List.map_congr_left fun c _ => lowerChar_idem c

/-- Characters with code below 65 (all URL delimiters: `/ ? & = : #`)
are untouched by and never produced by `lowerChar`. -/
theorem lowerChar_eq_iff_low {t : Char} (ht : t.toNat < 65) (c : Char) :
    lowerChar c = t ↔ c = t := by
  constructor
  · intro h
    by_cases hu : 65 ≤ c.toNat ∧ c.toNat ≤ 90
    · exfalso
      have := lowerChar_toNat c
      rw [if_pos hu, h] at this
      omega
    · rwa [lowerChar_of_not_upper hu] at h
  · intro h
    subst h
    exact lowerChar_of_not_upper (by omega)

theorem isSchemeChar_lowerChar (c : Char) :
    isSchemeChar (lowerChar c) = isSchemeChar c := by
  have h := lowerChar_toNat c
  unfold isSchemeChar
  by_cases hu : 65 ≤ c.toNat ∧ c.toNat ≤ 90
  · rw [if_pos hu] at h
    simp only [decide_eq_decide, h]
    omega
  · rw [if_neg hu] at h
    simp only [decide_eq_decide, h]

example : parseUrl (strOf "https://Example.com/a//") =
    some ⟨strOf "https:", strOf "example.com", strOf "/a//", []⟩ := by decide

example : parseUrl (strOf "https://example.com") =
    some ⟨strOf "https:", strOf "example.com", strOf "/", []⟩ := by decide

example : parseUrl (strOf "https://example.com/p?b=2&a=1") =
    some ⟨strOf "https:", strOf "example.com", strOf "/p",
      [(strOf "b", strOf "2"), (strOf "a", strOf "1")]⟩ := by decide

example : parseUrl (strOf "notaurl") = none := by decide

example : serializeUrl ⟨strOf "https:", strOf "example.com", strOf "/p",
    [(strOf "a", strOf "1")]⟩ = strOf "https://example.com/p?a=1" := by decide

example : normalizeUrl (strOf "https://Example.com/Path/?utm_source=x&b=2&a=1") =
    strOf "https://example.com/Path?a=1&b=2" := by decide

example : normalizeUrl (strOf "https://example.com/a//") =
    strOf "https://example.com/a/" := by decide

example : normalizeUrl (strOf "https://example.com/a/") =
    strOf "https://example.com/a" := by decide

/-! ### Splitting lemmas for the URL parser -/

theorem spanNot_eq_append (p : Char → Bool) (l : Str) :
    (spanNot p l).1 ++ (spanNot p l).2 = l := by
  induction l with
  | nil => rfl
  | cons c cs ih =>
    unfold spanNot
    by_cases h : p c
    · simp [h]
    · simp only [h]
      simpa using ih

theorem spanNot_append_of_stop {p : Char → Bool} {a : Str} (b : Char) (bs : Str)
    (ha : ∀ c ∈ a, ¬ p c) (hb : p b) :
    spanNot p (a ++ b :: bs) = (a, b :: bs) := by
  induction a with
  | nil => simp [spanNot, hb]
  | cons c cs ih =>
    have hc : ¬ p c := ha c (by simp)
    simp only [List.cons_append]
    unfold spanNot
    rw [ih fun x hx => ha x (by simp [hx])]
    simp [hc]

theorem spanNot_all {p : Char → Bool} {a : Str} (ha : ∀ c ∈ a, ¬ p c) :
    spanNot p a = (a, []) := by
  induction a with
  | nil => rfl
  | cons c cs ih =>
    have hc : ¬ p c := ha c (by simp)
    unfold spanNot
    rw [ih fun x hx => ha x (by simp [hx])]
    simp [hc]

theorem mem_spanNot_fst {p : Char → Bool} {l : Str} {c : Char}
    (h : c ∈ (spanNot p l).1) : c ∈ l := by
  have := spanNot_eq_append p l
  rw [← this]
  exact List.mem_append_left _ h

theorem mem_spanNot_snd {p : Char → Bool} {l : Str} {c : Char}
    (h : c ∈ (spanNot p l).2) : c ∈ l := by
  have := spanNot_eq_append p l
  rw [← this]
  exact List.mem_append_right _ h

theorem not_stop_of_mem_spanNot_fst {p : Char → Bool} {l : Str} {c : Char}
    (h : c ∈ (spanNot p l).1) : ¬ p c := by
  induction l with
  | nil => simp [spanNot] at h
  | cons d ds ih =>
    unfold spanNot at h
    by_cases hd : p d
    · simp [hd] at h
    · simp only [hd, if_neg] at h
      rcases List.mem_cons.mp h with rfl | h
      · exact hd
      · exact ih h

theorem splitChar_no_sep {sep : Char} {l : Str} (h : sep ∉ l) :
    splitChar sep l = [l] := by
  induction l with
  | nil => rfl
  | cons c cs ih =>
    have hc : c ≠ sep := fun e => h (e ▸ List.mem_cons_self c cs)
    unfold splitChar
    rw [ih fun hm => h (List.mem_cons_of_mem _ hm)]
    simp [hc]

theorem splitChar_ne_nil (sep : Char) (l : Str) : splitChar sep l ≠ [] := by
  cases l with
  | nil => simp [splitChar]
  | cons c cs =>
    unfold splitChar
    by_cases hc : c = sep
    · simp [hc]
    · simp only [hc, if_neg]
      cases h : splitChar sep cs <;> simp

theorem splitChar_append_sep {sep : Char} {x : Str} (l : Str) (hx : sep ∉ x) :
    splitChar sep (x ++ sep :: l) = x :: splitChar sep l := by
  induction x with
  | nil => simp [splitChar]
  | cons c cs ih =>
    have hc : c ≠ sep := fun e => hx (e ▸ List.mem_cons_self c cs)
    simp only [List.cons_append]
    unfold splitChar
    rw [ih fun hm => hx (List.mem_cons_of_mem _ hm)]
    simp only [hc, if_neg]
    cases l <;> rfl

theorem mem_splitChar_no_sep {sep : Char} {l : Str} {part : Str}
    (h : part ∈ splitChar sep l) : sep ∉ part := by
  induction l generalizing part with
  | nil =>
    simp [splitChar] at h
    simp [h]
  | cons c cs ih =>
    unfold splitChar at h
    by_cases hc : c = sep
    · simp only [hc, if_pos rfl] at h
      rcases List.mem_cons.mp h with rfl | h
      · simp
      · exact ih h
    · simp only [hc, if_neg] at h
      cases hs : splitChar sep cs with
      | nil =>
        rw [hs] at h
        simp at h
        subst h
        intro hm
        rcases List.mem_cons.mp hm with rfl | hm
        · exact hc rfl
        · simp at hm
      | cons p ps =>
        rw [hs] at h
        have hpmem : p ∈ splitChar sep cs := by rw [hs]; exact List.mem_cons_self p ps
        rcases List.mem_cons.mp h with rfl | h
        · intro hm
          rcases List.mem_cons.mp hm with rfl | hm
          · exact hc rfl
          · exact ih hpmem hm
        · have : part ∈ splitChar sep cs := by rw [hs]; exact List.mem_cons_of_mem p h
          exact ih this

theorem isSchemeChar_ne_colon {c : Char} (h : isSchemeChar c) : ¬ c = ':' := by
  intro he
  rw [he] at h
  exact absurd h (by decide)

theorem spanNot_cons_not_stop {p : Char → Bool} {c : Char} (cs : Str) (hc : ¬ p c) :
    spanNot p (c :: cs) = (c :: (spanNot p cs).1, (spanNot p cs).2) := by
  conv_lhs => unfold spanNot
  rw [if_neg hc]

theorem spanNot_cons_stop {p : Char → Bool} {c : Char} (cs : Str) (hc : p c) :
    spanNot p (c :: cs) = ([], c :: cs) := by
  conv_lhs => unfold spanNot
  rw [if_pos hc]

/-- The rest component of a span starts with a stop character. -/
theorem spanNot_snd_head {p : Char → Bool} {l : Str} {c : Char} {cs : Str}
    (h : (spanNot p l).2 = c :: cs) : p c := by
  induction l with
  | nil => simp [spanNot] at h
  | cons d ds ih =>
    by_cases hd : p d
    · rw [spanNot_cons_stop ds hd] at h
      cases h
      exact hd
    · rw [spanNot_cons_not_stop ds hd] at h
      exact ih h

theorem lowerStr_ne_nil {s : Str} (h : s ≠ []) : lowerStr s ≠ [] := by
  cases s <;> simp [lowerStr] at *

theorem lowerStr_all_scheme {s : Str} (h : s.all isSchemeChar) :
    (lowerStr s).all isSchemeChar := by
  rw [List.all_eq_true] at *
  intro c hc
  rcases List.mem_map.mp hc with ⟨d, hd, rfl⟩
  rw [isSchemeChar_lowerChar]
  exact h d hd

theorem mem_lowerStr_not_sep {s : Str} (hs : ∀ c ∈ s, ¬ (c = '/' ∨ c = '?'))
    {c : Char} (hc : c ∈ lowerStr s) : ¬ (c = '/' ∨ c = '?') := by
  rcases List.mem_map.mp hc with ⟨d, hd, rfl⟩
  intro hor
  rcases hor with h | h
  · exact hs d hd (Or.inl ((lowerChar_eq_iff_low (by decide) d).mp h))
  · exact hs d hd (Or.inr ((lowerChar_eq_iff_low (by decide) d).mp h))

theorem parseQuery_wf (qs : Str) :
    ∀ p ∈ parseQuery qs, (∀ c ∈ p.1, c ≠ '&' ∧ c ≠ '=') ∧ (∀ c ∈ p.2, c ≠ '&') := by
  intro p hp
  unfold parseQuery at hp
  rcases List.mem_map.mp hp with ⟨part, hpart, rfl⟩
  have hpartmem : part ∈ splitChar '&' qs := (List.mem_filter.mp hpart).1
  have hamp : '&' ∉ part := mem_splitChar_no_sep hpartmem
  unfold parseQueryPair
  constructor
  · intro c hc
    have hfst : c ∈ (spanNot (· = '=') part).1 := by
      revert hc
      cases hrest : (spanNot (· = '=') part).2 <;> simp_all
    refine ⟨fun h => hamp ?_, by simpa using not_stop_of_mem_spanNot_fst hfst⟩
    exact h ▸ mem_spanNot_fst hfst
  · intro c hc
    intro rfl
    apply hamp
    apply mem_spanNot_snd (p := (· = '=')) (l := part)
    revert hc
    cases hrest : (spanNot (· = '=') part).2 <;> simp_all

/-- Everything `parseUrl` returns is well-formed. -/
theorem parseUrl_elim {s : Str} {u : ParsedUrl} (h : parseUrl s = some u) :
    ∃ sch rest2 auth pq path q,
      spanNot (· = ':') s = (sch, ':' :: '/' :: '/' :: rest2) ∧
      sch ≠ [] ∧ sch.all isSchemeChar ∧
      spanNot (fun c => c = '/' ∨ c = '?') rest2 = (auth, pq) ∧ auth ≠ [] ∧
      spanNot (· = '?') pq = (path, q) ∧
      u = ⟨lowerStr sch ++ [':'], lowerStr auth,
            (if path = [] then ['/'] else path), queryOfRest q⟩ := by
  unfold parseUrl at h
  split at h
  case _ rest2 heq =>
    split at h
    case isFalse => exact absurd h (by simp)
    case isTrue hok =>
      split at h
      case isTrue => exact absurd h (by simp)
      case isFalse hane =>
        rw [Option.some.injEq] at h
        refine ⟨(spanNot (· = ':') s).1, rest2,
          (spanNot (fun c => c = '/' ∨ c = '?') rest2).1,
          (spanNot (fun c => c = '/' ∨ c = '?') rest2).2,
          (spanNot (· = '?') (spanNot (fun c => c = '/' ∨ c = '?') rest2).2).1,
          (spanNot (· = '?') (spanNot (fun c => c = '/' ∨ c = '?') rest2).2).2,
          ?_, hok.1, hok.2, rfl, hane, rfl, h.symm⟩
        rw [← heq]
  all_goals exact absurd h (by simp)

/-- Everything `parseUrl` returns is well-formed. -/
theorem parseUrl_wf {s : Str} {u : ParsedUrl} (h : parseUrl s = some u) : UrlWF u := by
  obtain ⟨sch, rest2, auth, pq, path, q, _, hs1, hs2, hA, hane, hP, rfl⟩ := parseUrl_elim h
  constructor
  · exact ⟨lowerStr sch, rfl, lowerStr_ne_nil hs1, lowerStr_all_scheme hs2,
      lowerStr_idem sch⟩
  · exact lowerStr_ne_nil hane
  · intro c hc
    apply mem_lowerStr_not_sep _ hc
    intro d hd
    have hds := not_stop_of_mem_spanNot_fst
      (p := fun c => decide (c = '/' ∨ c = '?')) (l := rest2) (c := d)
      (by rw [hA]; exact hd)
    simpa using hds
  · exact lowerStr_idem auth
  · simp only
    split
    case isTrue => exact ⟨[], rfl⟩
    case isFalse hpne =>
      -- `path` is nonempty, so `pq` starts with a stop character of the
      -- authority span, which must be `/` (a `?` would make the path empty).
      cases hpqe : pq with
      | nil =>
        exfalso
        apply hpne
        rw [hpqe] at hP
        simpa [spanNot] using congrArg Prod.fst hP.symm
      | cons c pq' =>
        have hstop := @spanNot_snd_head (fun c => decide (c = '/' ∨ c = '?'))
          rest2 c pq' (by rw [hA, hpqe])
        rw [hpqe] at hP
        by_cases hcq : c = '?'
        · exfalso
          apply hpne
          rw [spanNot_cons_stop _ (by simpa using hcq)] at hP
          exact (congrArg Prod.fst hP.symm : path = [])
        · have hc' : c = '/' := by
            rcases (by simpa using hstop : c = '/' ∨ c = '?') with h | h
            · exact h
            · exact absurd h hcq
          rw [spanNot_cons_not_stop _ (by simpa using hcq)] at hP
          have hpc : path = c :: (spanNot (fun x => decide (x = '?')) pq').1 :=
            (congrArg Prod.fst hP.symm :)
          exact ⟨(spanNot (fun x => decide (x = '?')) pq').1, by rw [hpc, hc']⟩
  · intro c hc
    simp only at hc
    split at hc
    case isTrue =>
      have hc' := List.mem_singleton.mp hc
      subst hc'
      decide
    case isFalse =>
      have hcf : c ∈ (spanNot (fun c => decide (c = '?')) pq).1 := by
        rw [hP]
        exact hc
      simpa using not_stop_of_mem_spanNot_fst hcf
  · cases q with
    | nil => simp [queryOfRest]
    | cons c qs => exact parseQuery_wf qs

theorem splitChar_joinAmp {parts : List Str} (hne : parts ≠ [])
    (hsep : ∀ part ∈ parts, '&' ∉ part) :
    splitChar '&' (joinAmp parts) = parts := by
  induction parts with
  | nil => exact absurd rfl hne
  | cons x rest ih =>
    cases rest with
    | nil => exact splitChar_no_sep (hsep x (by simp))
    | cons y rest' =>
      show splitChar '&' (x ++ '&' :: joinAmp (y :: rest')) = _
      rw [splitChar_append_sep _ (hsep x (by simp))]
      rw [ih (by simp) fun part hp => hsep part (List.mem_cons_of_mem _ hp)]

theorem parseQueryPair_roundtrip {k v : Str} (hk : '=' ∉ k) :
    parseQueryPair (k ++ '=' :: v) = (k, v) := by
  unfold parseQueryPair
  rw [spanNot_append_of_stop '=' v
    (fun c hc => by
      simp only [decide_eq_true_eq]
      exact fun e => hk (e ▸ hc))
    (by simp)]

/-- Re-parsing a serialised well-formed query gives the query back. -/
theorem parseQuery_serializeQuery {q : List (Str × Str)} (hne : q ≠ [])
    (hwf : ∀ p ∈ q, (∀ c ∈ p.1, c ≠ '&' ∧ c ≠ '=') ∧ (∀ c ∈ p.2, c ≠ '&')) :
    parseQuery (serializeQuery q) = q := by
  unfold parseQuery serializeQuery
  rw [splitChar_joinAmp]
  · rw [List.filter_eq_self.mpr]
    · rw [List.map_map]
      have heach : ∀ p ∈ q, (parseQueryPair ∘ fun p => p.1 ++ '=' :: p.2) p = id p := by
        intro p hp
        exact parseQueryPair_roundtrip fun hc => ((hwf p hp).1 '=' hc).2 rfl
      rw [List.map_congr_left heach, List.map_id]
    · intro part hpart
      rcases List.mem_map.mp hpart with ⟨p, hp, rfl⟩
      simp
  · intro h
    exact hne (List.map_eq_nil_iff.mp h)
  · intro part hpart
    rcases List.mem_map.mp hpart with ⟨p, hp, rfl⟩
    intro hmem
    rcases List.mem_append.mp hmem with hm | hm
    · exact ((hwf p hp).1 '&' hm).1 rfl
    · rcases List.mem_cons.mp hm with he | hm
      · exact absurd he.symm (by decide)
      · exact (hwf p hp).2 '&' hm rfl

/-- Constructor direction of `parseUrl`: supplying the split components
determines the parse result. -/
theorem parseUrl_intro {s sch auth pq path q : Str} {rest2 : List Char}
    (h1 : spanNot (· = ':') s = (sch, ':' :: '/' :: '/' :: rest2))
    (h2 : sch ≠ []) (h3 : sch.all isSchemeChar)
    (h4 : spanNot (fun c => c = '/' ∨ c = '?') rest2 = (auth, pq))
    (h5 : auth ≠ [])
    (h6 : spanNot (· = '?') pq = (path, q)) :
    parseUrl s = some ⟨lowerStr sch ++ [':'], lowerStr auth,
      (if path = [] then ['/'] else path), queryOfRest q⟩ := by
  unfold parseUrl
  rw [h1]
  dsimp only
  split
  case _ rest2' heq =>
    have hr : rest2 = rest2' := by
      injection heq with h heq
      injection heq with h heq
      injection heq with h heq
    subst hr
    rw [if_pos ⟨h2, h3⟩, h4]
    dsimp only
    have hp1 : (spanNot (· = '?') pq).1 = path := by rw [h6]
    have hp2 : (spanNot (· = '?') pq).2 = q := by rw [h6]
    rw [if_neg h5, hp1, hp2]
  case _ hnomatch =>
    exact (hnomatch rest2 rfl).elim

/-- `spanNot` over an append whose second part starts with a stop
character splits exactly at the append point. -/
theorem spanNot_append_head {p : Char → Bool} {a b : Str}
    (ha : ∀ c ∈ a, ¬ p c) (hb : ∃ c cs, b = c :: cs ∧ p c) :
    spanNot p (a ++ b) = (a, b) := by
  obtain ⟨c, cs, rfl, hc⟩ := hb
  exact spanNot_append_of_stop c cs ha hc

/-- Serialising a well-formed parsed URL and re-parsing gives it back. -/
theorem parse_serializeUrl {u : ParsedUrl} (h : UrlWF u) :
    parseUrl (serializeUrl u) = some u := by
  obtain ⟨sch, hproto, hschne, hschok, hschlow⟩ := h.scheme
  obtain ⟨prest, hpath⟩ := h.path_start
  have hhostch := h.host_chars
  have hhostne := h.host_ne
  have hhostlow := h.host_lower
  have hpathq := h.path_no_q
  have hqwf := h.query_wf
  obtain ⟨uproto, uhost, upath, uquery⟩ := u
  simp only at hproto hpath hhostch hhostne hhostlow hpathq hqwf
  have hpne : upath ≠ [] := by rw [hpath]; simp
  have hschcol : ∀ c ∈ sch, ¬ (fun x => decide (x = ':')) c = true := fun c hc => by
    simp only [decide_eq_true_eq]
    exact isSchemeChar_ne_colon (List.all_eq_true.mp hschok c hc)
  have hhostsep : ∀ c ∈ uhost, ¬ (fun c => decide (c = '/' ∨ c = '?')) c = true :=
    fun c hc => by
      simp only [decide_eq_true_eq]
      exact hhostch c hc
  have hpathnq : ∀ c ∈ upath, ¬ (fun x => decide (x = '?')) c = true := fun c hc => by
    simp only [decide_eq_true_eq]
    exact hpathq c hc
  by_cases hq : uquery = []
  · subst hq
    have hser : serializeUrl ⟨uproto, uhost, upath, []⟩ =
        sch ++ ':' :: '/' :: '/' :: (uhost ++ upath) := by
      unfold serializeUrl
      rw [hproto]
      simp [List.append_assoc]
    have hsp1 : spanNot (· = ':') (serializeUrl ⟨uproto, uhost, upath, []⟩) =
        (sch, ':' :: '/' :: '/' :: (uhost ++ upath)) := by
      rw [hser]
      exact spanNot_append_of_stop _ _ hschcol (by simp)
    have hsp2 : spanNot (fun c => c = '/' ∨ c = '?') (uhost ++ upath) =
        (uhost, upath) :=
      spanNot_append_head hhostsep ⟨'/', prest, hpath, by simp⟩
    have hsp3 : spanNot (· = '?') upath = (upath, []) := spanNot_all hpathnq
    rw [parseUrl_intro hsp1 hschne hschok hsp2 hhostne hsp3]
    simp only [Option.some.injEq, ParsedUrl.mk.injEq]
    exact ⟨by rw [hschlow, ← hproto], hhostlow, if_neg hpne, rfl⟩
  · have hser : serializeUrl ⟨uproto, uhost, upath, uquery⟩ =
        sch ++ ':' :: '/' :: '/' ::
          (uhost ++ (upath ++ '?' :: serializeQuery uquery)) := by
      unfold serializeUrl
      rw [hproto]
      simp only [if_neg hq]
      simp [List.append_assoc]
    have hsp1 : spanNot (· = ':') (serializeUrl ⟨uproto, uhost, upath, uquery⟩) =
        (sch, ':' :: '/' :: '/' ::
          (uhost ++ (upath ++ '?' :: serializeQuery uquery))) := by
      rw [hser]
      exact spanNot_append_of_stop _ _ hschcol (by simp)
    have hsp2 : spanNot (fun c => c = '/' ∨ c = '?')
        (uhost ++ (upath ++ '?' :: serializeQuery uquery)) =
        (uhost, upath ++ '?' :: serializeQuery uquery) :=
      spanNot_append_head hhostsep
        ⟨'/', prest ++ '?' :: serializeQuery uquery, by rw [hpath]; rfl, by simp⟩
    have hsp3 : spanNot (· = '?') (upath ++ '?' :: serializeQuery uquery) =
        (upath, '?' :: serializeQuery uquery) :=
      spanNot_append_of_stop _ _ hpathnq (by simp)
    rw [parseUrl_intro hsp1 hschne hschok hsp2 hhostne hsp3]
    simp only [Option.some.injEq, ParsedUrl.mk.injEq]
    exact ⟨by rw [hschlow, ← hproto], hhostlow, if_neg hpne,
      parseQuery_serializeQuery hq hqwf⟩

/-! ### Stability and idempotence of the query sort -/

theorem strLt_asymm {a b : Str} (h : strLt a b = true) : strLt b a = false := by
  induction a generalizing b with
  | nil =>
    cases b with
    | nil => simp [strLt] at h
    | cons c cs => simp [strLt]
  | cons c cs ih =>
    cases b with
    | nil => simp [strLt] at h
    | cons d ds =>
      unfold strLt at h ⊢
      by_cases h1 : c.toNat < d.toNat
      · rw [if_neg (by omega), if_pos (by omega)]
      · by_cases h2 : d.toNat < c.toNat
        · rw [if_neg h1, if_pos h2] at h
          simp at h
        · rw [if_neg h1, if_neg h2] at h
          rw [if_neg h2, if_neg h1]
          exact ih h

theorem strLt_trans {a b c : Str} (h1 : strLt a b = true) (h2 : strLt b c = true) :
    strLt a c = true := by
  induction a generalizing b c with
  | nil =>
    cases c with
    | nil => cases b <;> simp [strLt] at h2
    | cons z zs => simp [strLt]
  | cons x xs ih =>
    cases b with
    | nil => simp [strLt] at h1
    | cons y ys =>
      cases c with
      | nil => simp [strLt] at h2
      | cons z zs =>
        unfold strLt at h1 h2 ⊢
        have d1 : x.toNat < y.toNat ∨
            (¬ x.toNat < y.toNat ∧ ¬ y.toNat < x.toNat ∧ strLt xs ys = true) := by
          by_cases hxy : x.toNat < y.toNat
          · exact Or.inl hxy
          · by_cases hyx : y.toNat < x.toNat
            · rw [if_neg hxy, if_pos hyx] at h1
              simp at h1
            · rw [if_neg hxy, if_neg hyx] at h1
              exact Or.inr ⟨hxy, hyx, h1⟩
        have d2 : y.toNat < z.toNat ∨
            (¬ y.toNat < z.toNat ∧ ¬ z.toNat < y.toNat ∧ strLt ys zs = true) := by
          by_cases hyz : y.toNat < z.toNat
          · exact Or.inl hyz
          · by_cases hzy : z.toNat < y.toNat
            · rw [if_neg hyz, if_pos hzy] at h2
              simp at h2
            · rw [if_neg hyz, if_neg hzy] at h2
              exact Or.inr ⟨hyz, hzy, h2⟩
        rcases d1 with h1' | ⟨hn1, hn1', hs1⟩ <;> rcases d2 with h2' | ⟨hn2, hn2', hs2⟩
        · rw [if_pos (by omega)]
        · rw [if_pos (by omega)]
        · rw [if_pos (by omega)]
        · rw [if_neg (by omega), if_neg (by omega)]
          exact ih hs1 hs2

theorem mem_insertPair {x y : Str × Str} {l : List (Str × Str)} :
    x ∈ insertPair y l ↔ x = y ∨ x ∈ l := by
  induction l with
  | nil => simp [insertPair]
  | cons z zs ih =>
    unfold insertPair
    by_cases h : strLt y.1 z.1
    · rw [if_pos h]
      exact List.mem_cons
    · rw [if_neg h]
      simp only [List.mem_cons, ih]
      tauto

theorem insertPair_sorted {x : Str × Str} {l : List (Str × Str)}
    (hl : l.Pairwise keyLe) : (insertPair x l).Pairwise keyLe := by
  induction l with
  | nil => simp [insertPair]
  | cons z zs ih =>
    rcases List.pairwise_cons.mp hl with ⟨hz, hzs⟩
    unfold insertPair
    by_cases h : strLt x.1 z.1
    · rw [if_pos h]
      refine List.pairwise_cons.mpr ⟨?_, hl⟩
      intro y hy
      rcases List.mem_cons.mp hy with rfl | hy
      · exact fun hlt => by simp [strLt_asymm h] at hlt
      · -- keyLe x y for y ∈ zs: from x < z and z ≤ y
        intro hlt
        have hzy := hz y hy
        -- hlt : strLt y.1 x.1; h : strLt x.1 z.1; so y < z, contradicting z ≤ y
        exact hzy (strLt_trans hlt h)
    · rw [if_neg h]
      refine List.pairwise_cons.mpr ⟨?_, ih hzs⟩
      intro y hy
      rcases mem_insertPair.mp hy with rfl | hy
      · exact h
      · exact hz y hy

theorem sortQuery_sorted (l : List (Str × Str)) : (sortQuery l).Pairwise keyLe := by
  unfold sortQuery
  suffices h : ∀ acc : List (Str × Str), acc.Pairwise keyLe →
      (l.foldl (fun acc x => insertPair x acc) acc).Pairwise keyLe from
    h [] (by simp)
  induction l with
  | nil => exact fun acc hacc => hacc
  | cons x xs ih =>
    intro acc hacc
    exact ih (insertPair x acc) (insertPair_sorted hacc)

theorem insertPair_append {x : Str × Str} {l : List (Str × Str)}
    (h : ∀ y ∈ l, ¬ strLt x.1 y.1 = true) : insertPair x l = l ++ [x] := by
  induction l with
  | nil => rfl
  | cons z zs ih =>
    unfold insertPair
    rw [if_neg (h z (by simp))]
    rw [ih fun y hy => h y (List.mem_cons_of_mem _ hy)]
    rfl

theorem foldl_insert_of_sorted {l acc : List (Str × Str)}
    (h : (acc ++ l).Pairwise keyLe) :
    l.foldl (fun acc x => insertPair x acc) acc = acc ++ l := by
  induction l generalizing acc with
  | nil => simp
  | cons x xs ih =>
    have hax : ∀ y ∈ acc, ¬ strLt x.1 y.1 = true := by
      intro y hy
      have := (List.pairwise_append.mp h).2.2 y hy x (by simp)
      exact this
    have step : insertPair x acc = acc ++ [x] := insertPair_append hax
    simp only [List.foldl_cons, step]
    rw [ih (by simpa [List.append_assoc] using h)]
    simp

theorem sortQuery_idem (l : List (Str × Str)) :
    sortQuery (sortQuery l) = sortQuery l := by
  have := sortQuery_sorted l
  unfold sortQuery
  exact foldl_insert_of_sorted (by simpa using this)

theorem mem_sortQuery {x : Str × Str} {l : List (Str × Str)} :
    x ∈ sortQuery l ↔ x ∈ l := by
  unfold sortQuery
  suffices h : ∀ acc : List (Str × Str),
      (x ∈ l.foldl (fun acc x => insertPair x acc) acc ↔ x ∈ acc ∨ x ∈ l) by
    simpa using h []
  induction l with
  | nil => simp
  | cons z zs ih =>
    intro acc
    simp only [List.foldl_cons]
    rw [ih (insertPair z acc)]
    simp only [mem_insertPair, List.mem_cons]
    tauto

/-! ### Trailing-slash stripping -/

theorem strEndsWith_singleton {p : Str} {c : Char} :
    strEndsWith p [c] = true ↔ ∃ q, p = q ++ [c] := by
  unfold strEndsWith
  rw [List.isPrefixOf_iff_prefix]
  constructor
  · intro h
    obtain ⟨t, ht⟩ := h
    refine ⟨t.reverse, ?_⟩
    have := congrArg List.reverse ht
    simpa using this.symm
  · rintro ⟨q, rfl⟩
    rw [List.reverse_append]
    exact ⟨q.reverse, rfl⟩

theorem strEndsWith_pair {p : Str} {a b : Char} :
    strEndsWith p [a, b] = true ↔ ∃ q, p = q ++ [a, b] := by
  unfold strEndsWith
  rw [List.isPrefixOf_iff_prefix]
  constructor
  · intro h
    obtain ⟨t, ht⟩ := h
    refine ⟨t.reverse, ?_⟩
    have := congrArg List.reverse ht
    simpa using this.symm
  · rintro ⟨q, rfl⟩
    rw [show q ++ [a, b] = (q ++ [a]) ++ [b] by simp, List.reverse_append,
      List.reverse_append]
    exact ⟨q.reverse, rfl⟩

theorem stripTrailingSlash_starts {p : Str} {r : Str} (hp : p = '/' :: r) :
    ∃ r', stripTrailingSlash p = '/' :: r' := by
  unfold stripTrailingSlash
  split
  case isTrue hcond =>
    subst hp
    cases r with
    | nil => simp at hcond
    | cons a as => exact ⟨(a :: as).dropLast, rfl⟩
  case isFalse => exact ⟨r, hp⟩

theorem stripTrailingSlash_subset {p : Str} {c : Char}
    (h : c ∈ stripTrailingSlash p) : c ∈ p := by
  unfold stripTrailingSlash at h
  split at h
  · exact List.dropLast_subset p h
  · exact h

/-- Stripping a single trailing slash is idempotent unless the string
ends with a double slash. -/
theorem stripTrailingSlash_idem {p : Str} (hstart : ∃ r, p = '/' :: r)
    (h2 : ¬ strEndsWith p ['/', '/'] = true) :
    stripTrailingSlash (stripTrailingSlash p) = stripTrailingSlash p := by
  obtain ⟨r, hp⟩ := hstart
  by_cases hcond : p.length > 1 ∧ strEndsWith p ['/'] = true
  · obtain ⟨q, hq⟩ := strEndsWith_singleton.mp hcond.2
    have hstrip : stripTrailingSlash p = q := by
      unfold stripTrailingSlash
      rw [if_pos hcond, hq, List.dropLast_concat]
    rw [hstrip]
    unfold stripTrailingSlash
    rw [if_neg]
    intro ⟨hlen, hend⟩
    obtain ⟨q', hq'⟩ := strEndsWith_singleton.mp hend
    apply h2
    apply strEndsWith_pair.mpr
    exact ⟨q', by rw [hq, hq']; simp⟩
  · unfold stripTrailingSlash
    rw [if_neg hcond, if_neg hcond]

/-- Core idempotence fact: one `normalizeUrl` application on a parseable
URL whose pathname does not end in `//` reaches a fixed point. -/
theorem normalizeUrl_idem_of_parse {s : Str} {u : ParsedUrl}
    (hparse : parseUrl s = some u)
    (hpend : ¬ strEndsWith u.pathname ['/', '/'] = true) :
    normalizeUrl (normalizeUrl s) = normalizeUrl s := by
  have hwf := parseUrl_wf hparse
  have h1 : normalizeUrl s = serializeUrl ⟨u.protocol, lowerStr u.host,
      stripTrailingSlash u.pathname, sortQuery (deleteTracking u.query)⟩ := by
    unfold normalizeUrl
    rw [hparse]
  have hwf' : UrlWF ⟨u.protocol, lowerStr u.host,
      stripTrailingSlash u.pathname, sortQuery (deleteTracking u.query)⟩ := by
    obtain ⟨r, hr⟩ := hwf.path_start
    constructor
    · exact hwf.scheme
    · exact lowerStr_ne_nil hwf.host_ne
    · exact fun c hc => mem_lowerStr_not_sep hwf.host_chars hc
    · exact lowerStr_idem _
    · exact stripTrailingSlash_starts hr
    · exact fun c hc => hwf.path_no_q c (stripTrailingSlash_subset hc)
    · intro p hp
      apply hwf.query_wf
      have := mem_sortQuery.mp hp
      exact List.mem_of_mem_filter this
  have hq4 : sortQuery (deleteTracking (sortQuery (deleteTracking u.query))) =
      sortQuery (deleteTracking u.query) := by
    have hfix : deleteTracking (sortQuery (deleteTracking u.query)) =
        sortQuery (deleteTracking u.query) := by
      unfold deleteTracking
      apply List.filter_eq_self.mpr
      intro p hp
      have hmem := mem_sortQuery.mp hp
      exact (List.mem_filter.mp hmem).2
    rw [hfix, sortQuery_idem]
  rw [h1]
  unfold normalizeUrl
  rw [parse_serializeUrl hwf']
  simp only
  rw [lowerStr_idem, stripTrailingSlash_idem hwf.path_start hpend, hq4]

example :
    (urlFormatExecute
      [⟨strOf "https://example.com/a", strOf "e1", strOf "sitemap", none, none⟩,
       ⟨strOf "notaurl", strOf "e1", strOf "sitemap", none, none⟩]
      ufDefaults).stats = ⟨2, 1, 1⟩ := by decide

example :
    (urlFormatExecute [⟨strOf "https://example.com//x", strOf "e1",
      strOf "sitemap", none, none⟩] ufDefaults).invalid =
    [⟨⟨strOf "https://example.com//x", strOf "e1", strOf "sitemap", none, none⟩,
      strOf "invalid_format", strOf "Path contains double slashes"⟩] := by decide

example :
    (dedupeExecute
      [⟨strOf "https://a.com/x", strOf "e1", strOf "sitemap", none, none⟩,
       ⟨strOf "https://A.com/x/", strOf "e1", strOf "navigation", none, none⟩,
       ⟨strOf "https://A.com/x/", strOf "e2", strOf "navigation", none, none⟩]
      ⟨false, none⟩).stats = ⟨3, 2, 1⟩ := by decide

example :
    (langDedupExecute
      [⟨strOf "https://x.com/en/a", strOf "e1", strOf "sitemap", none, none⟩,
       ⟨strOf "https://x.com/de/a", strOf "e1", strOf "sitemap", none, none⟩,
       ⟨strOf "https://x.com/fr/a", strOf "e1", strOf "sitemap", none, none⟩]
      [strOf "de", strOf "en"] (strOf "first_found")).valid =
    [⟨⟨strOf "https://x.com/de/a", strOf "e1", strOf "sitemap", none, none⟩,
      some (strOf "de"), strOf "/a"⟩] := by decide

example :
    fetchWithFallback
      (.ok ⟨403, strOf "a captcha page", strOf "https://x.com"⟩)
      (fun _ => .ok ⟨strOf "real content", 200, strOf "https://x.com"⟩) =
    (.ok ⟨strOf "real content", 200, strOf "https://x.com", true⟩, 1) := by rfl

example :
    navResolveUrl (strOf "https://evilexample.com/x") (strOf "https://example.com")
      (strOf "example.com") = some (strOf "https://evilexample.com/x") := by rfl

example :
    subdomainCompatible (strOf "evilexample.com") (strOf "example.com") = false := by
  decide

example :
    navResolveUrl (strOf "https://sub.example.com/about") (strOf "https://example.com")
      (strOf "example.com") = some (strOf "https://sub.example.com/about") := by rfl

example :
    navResolveUrl (strOf "/login") (strOf "https://example.com")
      (strOf "example.com") = none := by rfl

/-! ## Partition lemmas for the validation submodules (toward C1) -/

theorem ufLoop_length (cfg : UFConfig) (urls : List UrlRecord) :
    (ufLoop cfg urls).1.length + (ufLoop cfg urls).2.length = urls.length := by
  induction urls with
  | nil => rfl
  | cons r rest ih =>
    unfold ufLoop
    cases validateUrl r.url cfg <;> simp <;> omega

theorem ufLoop_valid_mem {cfg : UFConfig} {urls : List UrlRecord} {v : UrlRecord}
    (h : v ∈ (ufLoop cfg urls).1) : v ∈ urls := by
  induction urls with
  | nil => simp [ufLoop] at h
  | cons r rest ih =>
    unfold ufLoop at h
    cases hv : validateUrl r.url cfg with
    | none =>
      simp only [hv] at h
      rcases List.mem_cons.mp h with rfl | h
      · exact List.mem_cons_self _ _
      · exact List.mem_cons_of_mem _ (ih h)
    | some err =>
      simp only [hv] at h
      exact List.mem_cons_of_mem _ (ih h)

theorem ufLoop_invalid_mem {cfg : UFConfig} {urls : List UrlRecord} {i : RejectedUrl}
    (h : i ∈ (ufLoop cfg urls).2) : i.base ∈ urls := by
  induction urls with
  | nil => simp [ufLoop] at h
  | cons r rest ih =>
    unfold ufLoop at h
    cases hv : validateUrl r.url cfg with
    | none =>
      simp only [hv] at h
      exact List.mem_cons_of_mem _ (ih h)
    | some err =>
      simp only [hv] at h
      rcases List.mem_cons.mp h with rfl | h
      · exact List.mem_cons_self _ _
      · exact List.mem_cons_of_mem _ (ih h)

theorem ufLoop_invalid_of_validate {cfg : UFConfig} {urls : List UrlRecord}
    {r : UrlRecord} {err : Str} (hv : validateUrl r.url cfg = some err)
    (hmem : r ∈ urls) :
    (⟨r, strOf "invalid_format", err⟩ : RejectedUrl) ∈ (ufLoop cfg urls).2 := by
  induction urls with
  | nil => simp at hmem
  | cons x rest ih =>
    rcases List.mem_cons.mp hmem with rfl | hmem
    · unfold ufLoop
      rw [hv]
      simp
    · unfold ufLoop
      cases validateUrl x.url cfg with
      | none => exact ih hmem
      | some e2 =>
        simp only
        exact List.mem_cons_of_mem _ (ih hmem)

theorem pfLoop_length (cfg : PFConfig) (urls : List UrlRecord) :
    (pfLoop cfg urls).1.length + (pfLoop cfg urls).2.length = urls.length := by
  induction urls with
  | nil => rfl
  | cons r rest ih =>
    unfold pfLoop
    cases filterUrl r cfg <;> simp <;> omega

theorem pfLoop_valid_mem {cfg : PFConfig} {urls : List UrlRecord} {v : UrlRecord}
    (h : v ∈ (pfLoop cfg urls).1) : v ∈ urls := by
  induction urls with
  | nil => simp [pfLoop] at h
  | cons r rest ih =>
    unfold pfLoop at h
    cases hv : filterUrl r cfg with
    | none =>
      simp only [hv] at h
      rcases List.mem_cons.mp h with rfl | h
      · exact List.mem_cons_self _ _
      · exact List.mem_cons_of_mem _ (ih h)
    | some reason =>
      simp only [hv] at h
      exact List.mem_cons_of_mem _ (ih h)

theorem pfLoop_invalid_mem {cfg : PFConfig} {urls : List UrlRecord} {i : RejectedUrl}
    (h : i ∈ (pfLoop cfg urls).2) : i.base ∈ urls := by
  induction urls with
  | nil => simp [pfLoop] at h
  | cons r rest ih =>
    unfold pfLoop at h
    cases hv : filterUrl r cfg with
    | none =>
      simp only [hv] at h
      exact List.mem_cons_of_mem _ (ih h)
    | some reason =>
      simp only [hv] at h
      rcases List.mem_cons.mp h with rfl | h
      · exact List.mem_cons_self _ _
      · exact List.mem_cons_of_mem _ (ih h)

theorem filter_partition_length {α : Type} (p : α → Prop) [DecidablePred p]
    (l : List α) :
    (l.filter fun x => p x).length + (l.filter fun x => ¬ p x).length = l.length := by
  induction l with
  | nil => rfl
  | cons x xs ih =>
    simp only [List.filter_cons]
    by_cases h : p x
    · rw [if_pos (by simpa using h), if_neg (by simpa using h)]
      simp only [List.length_cons]
      omega
    · rw [if_neg (by simpa using h), if_pos (by simpa using h)]
      simp only [List.length_cons]
      omega

theorem sortByPreference_length (urls : List UrlRecord) (m : Option Str) :
    (sortByPreference urls m).length = urls.length := by
  cases m with
  | none => rfl
  | some s =>
    unfold sortByPreference
    rw [List.length_append]
    exact filter_partition_length (fun r => r.discovery_method = s) urls

theorem sortByPreference_mem {urls : List UrlRecord} {m : Option Str}
    {r : UrlRecord} (h : r ∈ sortByPreference urls m) : r ∈ urls := by
  cases m with
  | none => exact h
  | some s =>
    unfold sortByPreference at h
    rcases List.mem_append.mp h with h | h
    · exact List.mem_filter.mp h |>.1
    · exact List.mem_filter.mp h |>.1

theorem dedupeLoop_length (cfg : DedupeConfig) (items : List UrlRecord)
    (seen : List (Str × UrlRecord)) :
    (dedupeLoop cfg items seen).1.length + (dedupeLoop cfg items seen).2.length =
      items.length := by
  induction items generalizing seen with
  | nil => rfl
  | cons r rest ih =>
    unfold dedupeLoop
    cases hl : List.lookup (dedupeKey cfg r) seen with
    | none =>
      simp only [hl]
      have := ih ((dedupeKey cfg r, r) :: seen)
      simp only [List.length_cons]
      omega
    | some original =>
      simp only [hl]
      have := ih seen
      simp only [List.length_cons]
      omega

theorem dedupeLoop_valid_mem {cfg : DedupeConfig} {items : List UrlRecord}
    {seen : List (Str × UrlRecord)} {v : UrlRecord}
    (h : v ∈ (dedupeLoop cfg items seen).1) : v ∈ items := by
  induction items generalizing seen with
  | nil => simp [dedupeLoop] at h
  | cons r rest ih =>
    unfold dedupeLoop at h
    cases hl : List.lookup (dedupeKey cfg r) seen with
    | none =>
      simp only [hl] at h
      rcases List.mem_cons.mp h with rfl | h
      · exact List.mem_cons_self _ _
      · exact List.mem_cons_of_mem _ (ih h)
    | some original =>
      simp only [hl] at h
      exact List.mem_cons_of_mem _ (ih h)

theorem dedupeLoop_invalid_mem {cfg : DedupeConfig} {items : List UrlRecord}
    {seen : List (Str × UrlRecord)} {i : RejectedUrl}
    (h : i ∈ (dedupeLoop cfg items seen).2) : i.base ∈ items := by
  induction items generalizing seen with
  | nil => simp [dedupeLoop] at h
  | cons r rest ih =>
    unfold dedupeLoop at h
    cases hl : List.lookup (dedupeKey cfg r) seen with
    | none =>
      simp only [hl] at h
      exact List.mem_cons_of_mem _ (ih h)
    | some original =>
      simp only [hl] at h
      rcases List.mem_cons.mp h with rfl | h
      · exact List.mem_cons_self _ _
      · exact List.mem_cons_of_mem _ (ih h)

theorem addToSlugGroups_size (slug : Str) (x : LangRecord) (sgs : SlugGroups) :
    sizeSG (addToSlugGroups slug x sgs) = sizeSG sgs + 1 := by
  induction sgs with
  | nil => simp [addToSlugGroups, sizeSG]
  | cons sg rest ih =>
    unfold addToSlugGroups
    by_cases h : sg.1 = slug
    · rw [if_pos h]
      simp [sizeSG]
      omega
    · rw [if_neg h]
      simp only [sizeSG, List.map_cons, List.sum_cons] at ih ⊢
      omega

theorem addToEntityGroups_size (eid slug : Str) (x : LangRecord)
    (egs : EntityGroups) :
    sizeEG (addToEntityGroups eid slug x egs) = sizeEG egs + 1 := by
  induction egs with
  | nil => simp [addToEntityGroups, sizeEG, sizeSG, addToSlugGroups]
  | cons eg rest ih =>
    unfold addToEntityGroups
    by_cases h : eg.1 = eid
    · rw [if_pos h]
      simp only [sizeEG, List.map_cons, List.sum_cons]
      rw [addToSlugGroups_size]
      omega
    · rw [if_neg h]
      simp only [sizeEG, List.map_cons, List.sum_cons] at ih ⊢
      omega

theorem buildGroups_size (urls : List UrlRecord) :
    sizeEG (buildGroups urls) = urls.length := by
  unfold buildGroups
  suffices h : ∀ egs : EntityGroups,
      sizeEG (urls.foldl (fun egs r =>
        let ls := extractLanguageAndSlug r.url
        addToEntityGroups r.run_entity_id ls.2 ⟨r, ls.1, ls.2⟩ egs) egs) =
      sizeEG egs + urls.length by
    simpa [sizeEG] using h []
  induction urls with
  | nil => simp
  | cons r rest ih =>
    intro egs
    simp only [List.foldl_cons]
    rw [ih]
    rw [addToEntityGroups_size]
    simp only [List.length_cons]
    omega

theorem groupSplit_length (canonical : LangRecord) (g : List LangRecord)
    (i ci : Nat) :
    (groupSplit canonical g i ci).1.length + (groupSplit canonical g i ci).2.length =
      g.length := by
  induction g generalizing i with
  | nil => rfl
  | cons u rest ih =>
    unfold groupSplit
    by_cases h : i = ci
    · rw [if_pos h]
      simp only [List.length_cons]
      have := ih (i + 1)
      omega
    · rw [if_neg h]
      simp only [List.length_cons]
      have := ih (i + 1)
      omega

theorem processSlugGroup_length (pref : List Str) (fb : Str) (g : List LangRecord) :
    (processSlugGroup pref fb g).1.length + (processSlugGroup pref fb g).2.length =
      g.length := by
  unfold processSlugGroup
  match g with
  | [x] => rfl
  | [] =>
    cases h : ([] : List LangRecord)[selectCanonicalIdx [] pref fb]? <;>
      simp [h, groupSplit]
  | a :: b :: rest =>
    cases h : (a :: b :: rest)[selectCanonicalIdx (a :: b :: rest) pref fb]? with
    | none => simp [h]
    | some canonical =>
      simp only [h]
      exact groupSplit_length canonical (a :: b :: rest) 0 _

theorem processSlugGroups_length (pref : List Str) (fb : Str) (sgs : SlugGroups) :
    (processSlugGroups pref fb sgs).1.length +
      (processSlugGroups pref fb sgs).2.length = sizeSG sgs := by
  induction sgs with
  | nil => rfl
  | cons sg rest ih =>
    unfold processSlugGroups
    simp only [List.length_append]
    have h1 := processSlugGroup_length pref fb sg.2
    simp only [sizeSG, List.map_cons, List.sum_cons] at ih ⊢
    omega

theorem processEntityGroups_length (pref : List Str) (fb : Str) (egs : EntityGroups) :
    (processEntityGroups pref fb egs).1.length +
      (processEntityGroups pref fb egs).2.length = sizeEG egs := by
  induction egs with
  | nil => rfl
  | cons eg rest ih =>
    unfold processEntityGroups
    simp only [List.length_append]
    have h1 := processSlugGroups_length pref fb eg.2
    simp only [sizeEG, List.map_cons, List.sum_cons] at ih ⊢
    omega

/-- Every record held in the groups built from `urls` is an annotated
input record. -/
theorem addToSlugGroups_mem {slug : Str} {x y : LangRecord} {sgs : SlugGroups}
    {s : Str} {g : List LangRecord}
    (hg : (s, g) ∈ addToSlugGroups slug x sgs) (hy : y ∈ g) :
    y = x ∨ ∃ s' g', (s', g') ∈ sgs ∧ y ∈ g' := by
  induction sgs generalizing s g with
  | nil =>
    simp [addToSlugGroups] at hg
    rcases hg with ⟨rfl, rfl⟩
    simp at hy
    exact Or.inl hy
  | cons sg rest ih =>
    unfold addToSlugGroups at hg
    by_cases h : sg.1 = slug
    · rw [if_pos h] at hg
      rcases List.mem_cons.mp hg with heq | hg
      · have h1 : s = sg.1 ∧ g = sg.2 ++ [x] := by
          have := Prod.mk.injEq .. ▸ heq
          exact ⟨this.1, this.2⟩
        rcases List.mem_append.mp (h1.2 ▸ hy) with hm | hm
        · exact Or.inr ⟨sg.1, sg.2, by simp, hm⟩
        · simp at hm
          exact Or.inl hm
      · exact Or.inr ⟨s, g, List.mem_cons_of_mem _ hg, hy⟩
    · rw [if_neg h] at hg
      rcases List.mem_cons.mp hg with heq | hg
      · exact Or.inr ⟨s, g, by rw [heq]; simp, hy⟩
      · rcases ih hg hy with hx | ⟨s', g', hg', hy'⟩
        · exact Or.inl hx
        · exact Or.inr ⟨s', g', List.mem_cons_of_mem _ hg', hy'⟩

theorem addToEntityGroups_mem {eid slug : Str} {x y : LangRecord}
    {egs : EntityGroups} {e : Str} {sgs : SlugGroups} {s : Str} {g : List LangRecord}
    (he : (e, sgs) ∈ addToEntityGroups eid slug x egs)
    (hg : (s, g) ∈ sgs) (hy : y ∈ g) :
    y = x ∨ ∃ e' sgs' s' g', (e', sgs') ∈ egs ∧ (s', g') ∈ sgs' ∧ y ∈ g' := by
  induction egs generalizing e sgs with
  | nil =>
    simp [addToEntityGroups] at he
    rcases he with ⟨rfl, rfl⟩
    simp [addToSlugGroups] at hg
    rcases hg with ⟨rfl, rfl⟩
    simp at hy
    exact Or.inl hy
  | cons eg rest ih =>
    unfold addToEntityGroups at he
    by_cases h : eg.1 = eid
    · rw [if_pos h] at he
      rcases List.mem_cons.mp he with heq | he
      · have h1 : e = eg.1 ∧ sgs = addToSlugGroups slug x eg.2 := by
          have := Prod.mk.injEq .. ▸ heq
          exact ⟨this.1, this.2⟩
        rcases addToSlugGroups_mem (h1.2 ▸ hg) hy with hx | ⟨s', g', hg', hy'⟩
        · exact Or.inl hx
        · exact Or.inr ⟨eg.1, eg.2, s', g', by simp, hg', hy'⟩
      · exact Or.inr ⟨e, sgs, s, g, List.mem_cons_of_mem _ he, hg, hy⟩
    · rw [if_neg h] at he
      rcases List.mem_cons.mp he with heq | he
      · exact Or.inr ⟨e, sgs, s, g, by rw [heq]; simp, hg, hy⟩
      · rcases ih he hg with hx | ⟨e', sgs', s', g', he', hg', hy'⟩
        · exact Or.inl hx
        · exact Or.inr ⟨e', sgs', s', g', List.mem_cons_of_mem _ he', hg', hy'⟩

theorem foldl_groups_mem (U : List UrlRecord) (urls : List UrlRecord) :
    ∀ (egs : EntityGroups),
      (∀ e' sgs' s' g' (y' : LangRecord), (e', sgs') ∈ egs → (s', g') ∈ sgs' →
        y' ∈ g' → y'.base ∈ U) →
      (∀ r ∈ urls, r ∈ U) →
      ∀ e' sgs' s' g' (y' : LangRecord),
        (e', sgs') ∈ urls.foldl (fun egs r =>
          let ls := extractLanguageAndSlug r.url
          addToEntityGroups r.run_entity_id ls.2 ⟨r, ls.1, ls.2⟩ egs) egs →
        (s', g') ∈ sgs' → y' ∈ g' → y'.base ∈ U := by
  induction urls with
  | nil => exact fun egs hinv _ => hinv
  | cons r rest ih =>
    intro egs hinv hsub e' sgs' s' g' y' he hg hy
    simp only [List.foldl_cons] at he
    refine ih _ ?_ (fun x hx => hsub x (List.mem_cons_of_mem _ hx))
      e' sgs' s' g' y' he hg hy
    intro e2 sgs2 s2 g2 y2 he2 hg2 hy2
    rcases addToEntityGroups_mem he2 hg2 hy2 with hx | ⟨e3, sgs3, s3, g3, he3, hg3, hy3⟩
    · rw [hx]
      exact hsub r (List.mem_cons_self _ _)
    · exact hinv e3 sgs3 s3 g3 y2 he3 hg3 hy3

theorem buildGroups_mem {urls : List UrlRecord} {e : Str} {sgs : SlugGroups}
    {s : Str} {g : List LangRecord} {y : LangRecord}
    (he : (e, sgs) ∈ buildGroups urls) (hg : (s, g) ∈ sgs) (hy : y ∈ g) :
    y.base ∈ urls := by
  unfold buildGroups at he
  exact foldl_groups_mem urls urls [] (by simp) (fun r hr => hr) e sgs s g y he hg hy

theorem groupSplit_valid_mem {canonical : LangRecord} {g : List LangRecord}
    {i ci : Nat} {y : LangRecord} (h : y ∈ (groupSplit canonical g i ci).1) :
    y ∈ g := by
  induction g generalizing i with
  | nil => simp [groupSplit] at h
  | cons u rest ih =>
    unfold groupSplit at h
    by_cases hc : i = ci
    · rw [if_pos hc] at h
      rcases List.mem_cons.mp h with rfl | h
      · exact List.mem_cons_self _ _
      · exact List.mem_cons_of_mem _ (ih h)
    · rw [if_neg hc] at h
      exact List.mem_cons_of_mem _ (ih h)

theorem groupSplit_invalid_mem {canonical : LangRecord} {g : List LangRecord}
    {i ci : Nat} {rj : LangRejected} (h : rj ∈ (groupSplit canonical g i ci).2) :
    rj.item ∈ g := by
  induction g generalizing i with
  | nil => simp [groupSplit] at h
  | cons u rest ih =>
    unfold groupSplit at h
    by_cases hc : i = ci
    · rw [if_pos hc] at h
      exact List.mem_cons_of_mem _ (ih h)
    · rw [if_neg hc] at h
      rcases List.mem_cons.mp h with rfl | h
      · exact List.mem_cons_self _ _
      · exact List.mem_cons_of_mem _ (ih h)

theorem processSlugGroup_valid_mem {pref : List Str} {fb : Str}
    {g : List LangRecord} {y : LangRecord}
    (h : y ∈ (processSlugGroup pref fb g).1) : y ∈ g := by
  match g with
  | [x] =>
    have hx : y ∈ ([x] : List LangRecord) := h
    exact hx
  | [] => exact h
  | a :: b :: rest =>
    revert h
    show y ∈ (match (a :: b :: rest)[selectCanonicalIdx (a :: b :: rest) pref fb]? with
      | some canonical =>
        groupSplit canonical (a :: b :: rest) 0
          (selectCanonicalIdx (a :: b :: rest) pref fb)
      | none => (a :: b :: rest, [])).1 → y ∈ a :: b :: rest
    cases hh : (a :: b :: rest)[selectCanonicalIdx (a :: b :: rest) pref fb]? with
    | none =>
      intro h
      exact h
    | some c =>
      intro h
      exact groupSplit_valid_mem h

theorem processSlugGroup_invalid_mem {pref : List Str} {fb : Str}
    {g : List LangRecord} {rj : LangRejected}
    (h : rj ∈ (processSlugGroup pref fb g).2) : rj.item ∈ g := by
  match g with
  | [x] => exact absurd h (by simp [processSlugGroup])
  | [] => exact absurd h (by simp [processSlugGroup])
  | a :: b :: rest =>
    revert h
    show rj ∈ (match (a :: b :: rest)[selectCanonicalIdx (a :: b :: rest) pref fb]? with
      | some canonical =>
        groupSplit canonical (a :: b :: rest) 0
          (selectCanonicalIdx (a :: b :: rest) pref fb)
      | none => (a :: b :: rest, [])).2 → rj.item ∈ a :: b :: rest
    cases hh : (a :: b :: rest)[selectCanonicalIdx (a :: b :: rest) pref fb]? with
    | none =>
      intro h
      exact absurd h (by simp)
    | some c =>
      intro h
      exact groupSplit_invalid_mem h

theorem processSlugGroups_valid_mem {pref : List Str} {fb : Str}
    {sgs : SlugGroups} {y : LangRecord}
    (h : y ∈ (processSlugGroups pref fb sgs).1) :
    ∃ s g, (s, g) ∈ sgs ∧ y ∈ g := by
  induction sgs with
  | nil => simp [processSlugGroups] at h
  | cons sg rest ih =>
    unfold processSlugGroups at h
    rcases List.mem_append.mp h with h | h
    · exact ⟨sg.1, sg.2, by simp, processSlugGroup_valid_mem h⟩
    · rcases ih h with ⟨s, g, hg, hy⟩
      exact ⟨s, g, List.mem_cons_of_mem _ hg, hy⟩

theorem processSlugGroups_invalid_mem {pref : List Str} {fb : Str}
    {sgs : SlugGroups} {rj : LangRejected}
    (h : rj ∈ (processSlugGroups pref fb sgs).2) :
    ∃ s g, (s, g) ∈ sgs ∧ rj.item ∈ g := by
  induction sgs with
  | nil => simp [processSlugGroups] at h
  | cons sg rest ih =>
    unfold processSlugGroups at h
    rcases List.mem_append.mp h with h | h
    · exact ⟨sg.1, sg.2, by simp, processSlugGroup_invalid_mem h⟩
    · rcases ih h with ⟨s, g, hg, hy⟩
      exact ⟨s, g, List.mem_cons_of_mem _ hg, hy⟩

theorem processEntityGroups_valid_mem {pref : List Str} {fb : Str}
    {egs : EntityGroups} {y : LangRecord}
    (h : y ∈ (processEntityGroups pref fb egs).1) :
    ∃ e sgs s g, (e, sgs) ∈ egs ∧ (s, g) ∈ sgs ∧ y ∈ g := by
  induction egs with
  | nil => simp [processEntityGroups] at h
  | cons eg rest ih =>
    unfold processEntityGroups at h
    rcases List.mem_append.mp h with h | h
    · rcases processSlugGroups_valid_mem h with ⟨s, g, hg, hy⟩
      exact ⟨eg.1, eg.2, s, g, by simp, hg, hy⟩
    · rcases ih h with ⟨e, sgs, s, g, he, hg, hy⟩
      exact ⟨e, sgs, s, g, List.mem_cons_of_mem _ he, hg, hy⟩

theorem processEntityGroups_invalid_mem {pref : List Str} {fb : Str}
    {egs : EntityGroups} {rj : LangRejected}
    (h : rj ∈ (processEntityGroups pref fb egs).2) :
    ∃ e sgs s g, (e, sgs) ∈ egs ∧ (s, g) ∈ sgs ∧ rj.item ∈ g := by
  induction egs with
  | nil => simp [processEntityGroups] at h
  | cons eg rest ih =>
    unfold processEntityGroups at h
    rcases List.mem_append.mp h with h | h
    · rcases processSlugGroups_invalid_mem h with ⟨s, g, hg, hy⟩
      exact ⟨eg.1, eg.2, s, g, by simp, hg, hy⟩
    · rcases ih h with ⟨e, sgs, s, g, he, hg, hy⟩
      exact ⟨e, sgs, s, g, List.mem_cons_of_mem _ he, hg, hy⟩

/-! ## Claim theorems -/

/-- C9: beyond the spec's stated rejection list, `url-format` also
rejects every otherwise-valid http(s) URL whose parsed pathname
contains a double slash, classifying it invalid with reason
`invalid_format` and detail `Path contains double slashes`. -/
theorem C9_url_format_rejects_double_slash
    (r : UrlRecord) (u : ParsedUrl) (urls : List UrlRecord)
    (hparse : parseUrl r.url = some u)
    (htrim : ¬ jsTrim r.url = [])
    (hlen : r.url.length ≤ 2048)
    (hproto : u.protocol = strOf "http:" ∨ u.protocol = strOf "https:")
    (htld : u.host.contains '.' = true)
    (hctrl : r.url.any isControlChar = false)
    (hdbl : strIncludes u.pathname (strOf "//") = true)
    (hmem : r ∈ urls) :
    validateUrl r.url ufDefaults = some (strOf "Path contains double slashes") ∧
    (⟨r, strOf "invalid_format", strOf "Path contains double slashes"⟩ : RejectedUrl) ∈
      (urlFormatExecute urls ufDefaults).invalid := by
  have hwf := parseUrl_wf hparse
  have hproto' : ufDefaults.allowed_protocols.contains u.protocol = true := by
    rcases hproto with h | h <;> rw [h] <;> decide
  have hv : validateUrl r.url ufDefaults = some (strOf "Path contains double slashes") := by
    unfold validateUrl
    rw [if_neg htrim]
    rw [if_neg (by simp only [ufDefaults]; omega)]
    rw [hparse]
    simp only
    rw [if_neg (fun hcon => hcon hproto')]
    rw [if_neg hwf.host_ne]
    rw [if_neg (by rintro ⟨-, hc⟩; exact hc htld)]
    rw [if_neg (by simp [hctrl])]
    rw [if_pos hdbl]
  exact ⟨hv, ufLoop_invalid_of_validate hv hmem⟩

/-- Witness for C9 at `http://example.com//x`. -/
theorem C9_witness :
    validateUrl (strOf "http://example.com//x") ufDefaults =
      some (strOf "Path contains double slashes") ∧
    (⟨⟨strOf "http://example.com//x", strOf "e1", strOf "sitemap", none, none⟩,
      strOf "invalid_format", strOf "Path contains double slashes"⟩ : RejectedUrl) ∈
      (urlFormatExecute
        [⟨strOf "http://example.com//x", strOf "e1", strOf "sitemap", none, none⟩]
        ufDefaults).invalid :=
  C9_url_format_rejects_double_slash
    ⟨strOf "http://example.com//x", strOf "e1", strOf "sitemap", none, none⟩
    ⟨strOf "http:", strOf "example.com", strOf "//x", []⟩
    [⟨strOf "http://example.com//x", strOf "e1", strOf "sitemap", none, none⟩]
    (by decide) (by decide) (by decide) (Or.inl rfl) (by decide) (by decide)
    (by decide) (by decide)

/-- C1: for every validation submodule (url-format, path-filter,
dedupe, lang-dedup) and every input list, the returned partition
satisfies `|valid| + |invalid| = |input|`, and every output item is an
input record with possibly appended fields: no input record count is
lost and no record is invented. -/
theorem C1_validation_partition :
    (∀ (urls : List UrlRecord) (cfg : UFConfig),
      (urlFormatExecute urls cfg).valid.length +
        (urlFormatExecute urls cfg).invalid.length = urls.length ∧
      (∀ v ∈ (urlFormatExecute urls cfg).valid, v ∈ urls) ∧
      (∀ i ∈ (urlFormatExecute urls cfg).invalid, i.base ∈ urls)) ∧
    (∀ (urls : List UrlRecord) (cfg : PFConfig),
      (pathFilterExecute urls cfg).valid.length +
        (pathFilterExecute urls cfg).invalid.length = urls.length ∧
      (∀ v ∈ (pathFilterExecute urls cfg).valid, v ∈ urls) ∧
      (∀ i ∈ (pathFilterExecute urls cfg).invalid, i.base ∈ urls)) ∧
    (∀ (urls : List UrlRecord) (cfg : DedupeConfig),
      (dedupeExecute urls cfg).valid.length +
        (dedupeExecute urls cfg).invalid.length = urls.length ∧
      (∀ v ∈ (dedupeExecute urls cfg).valid, v ∈ urls) ∧
      (∀ i ∈ (dedupeExecute urls cfg).invalid, i.base ∈ urls)) ∧
    (∀ (urls : List UrlRecord) (pref : List Str) (fb : Str),
      (langDedupExecute urls pref fb).valid.length +
        (langDedupExecute urls pref fb).invalid.length = urls.length ∧
      (∀ v ∈ (langDedupExecute urls pref fb).valid, v.base ∈ urls) ∧
      (∀ i ∈ (langDedupExecute urls pref fb).invalid, i.item.base ∈ urls)) := by
  refine ⟨?_, ?_, ?_, ?_⟩
  · intro urls cfg
    exact ⟨ufLoop_length cfg urls, fun v hv => ufLoop_valid_mem hv,
      fun i hi => ufLoop_invalid_mem hi⟩
  · intro urls cfg
    exact ⟨pfLoop_length cfg urls, fun v hv => pfLoop_valid_mem hv,
      fun i hi => pfLoop_invalid_mem hi⟩
  · intro urls cfg
    refine ⟨?_, ?_, ?_⟩
    · have h1 := dedupeLoop_length cfg
        (sortByPreference urls cfg.prefer_discovery_method) []
      have h2 := sortByPreference_length urls cfg.prefer_discovery_method
      unfold dedupeExecute
      simp only
      omega
    · intro v hv
      exact sortByPreference_mem (dedupeLoop_valid_mem hv)
    · intro i hi
      exact sortByPreference_mem (dedupeLoop_invalid_mem hi)
  · intro urls pref fb
    refine ⟨?_, ?_, ?_⟩
    · have h1 := processEntityGroups_length pref fb (buildGroups urls)
      have h2 := buildGroups_size urls
      unfold langDedupExecute
      simp only
      omega
    · intro v hv
      rcases processEntityGroups_valid_mem hv with ⟨e, sgs, s, g, he, hg, hy⟩
      exact buildGroups_mem he hg hy
    · intro i hi
      rcases processEntityGroups_invalid_mem hi with ⟨e, sgs, s, g, he, hg, hy⟩
      exact buildGroups_mem he hg hy

/-- Witness for C1: the partition property evaluated on a concrete
two-record input for each of the four submodules. -/
theorem C1_witness :
    ((urlFormatExecute
        [⟨strOf "https://example.com/a", strOf "e1", strOf "sitemap", none, none⟩,
         ⟨strOf "notaurl", strOf "e1", strOf "sitemap", none, none⟩]
        ufDefaults).valid.length +
      (urlFormatExecute
        [⟨strOf "https://example.com/a", strOf "e1", strOf "sitemap", none, none⟩,
         ⟨strOf "notaurl", strOf "e1", strOf "sitemap", none, none⟩]
        ufDefaults).invalid.length = 2) ∧
    ((dedupeExecute
        [⟨strOf "https://a.com/x", strOf "e1", strOf "sitemap", none, none⟩,
         ⟨strOf "https://A.com/x/", strOf "e1", strOf "navigation", none, none⟩]
        ⟨false, none⟩).valid.length +
      (dedupeExecute
        [⟨strOf "https://a.com/x", strOf "e1", strOf "sitemap", none, none⟩,
         ⟨strOf "https://A.com/x/", strOf "e1", strOf "navigation", none, none⟩]
        ⟨false, none⟩).invalid.length = 2) ∧
    ((langDedupExecute
        [⟨strOf "https://x.com/en/a", strOf "e1", strOf "sitemap", none, none⟩,
         ⟨strOf "https://x.com/de/a", strOf "e1", strOf "sitemap", none, none⟩]
        defaultLanguagePreference (strOf "first_found")).valid.length +
      (langDedupExecute
        [⟨strOf "https://x.com/en/a", strOf "e1", strOf "sitemap", none, none⟩,
         ⟨strOf "https://x.com/de/a", strOf "e1", strOf "sitemap", none, none⟩]
        defaultLanguagePreference (strOf "first_found")).invalid.length = 2) := by
  refine ⟨?_, ?_, ?_⟩
  · exact (C1_validation_partition.1 _ ufDefaults).1
  · exact (C1_validation_partition.2.2.1 _ ⟨false, none⟩).1
  · exact (C1_validation_partition.2.2.2 _ defaultLanguagePreference _).1

theorem processSlugGroups_mem_of {pref : List Str} {fb : Str} {sgs : SlugGroups}
    {s : Str} {g : List LangRecord} {y : LangRecord}
    (hg : (s, g) ∈ sgs) (hy : y ∈ (processSlugGroup pref fb g).1) :
    y ∈ (processSlugGroups pref fb sgs).1 := by
  induction sgs with
  | nil => simp at hg
  | cons sg rest ih =>
    unfold processSlugGroups
    rcases List.mem_cons.mp hg with heq | hg
    · apply List.mem_append_left
      have h2 : sg.2 = g := (Prod.mk.injEq .. ▸ heq.symm).2
      rw [h2]
      exact hy
    · exact List.mem_append_right _ (ih hg)

theorem processEntityGroups_mem_of {pref : List Str} {fb : Str}
    {egs : EntityGroups} {e : Str} {sgs : SlugGroups} {y : LangRecord}
    (he : (e, sgs) ∈ egs) (hy : y ∈ (processSlugGroups pref fb sgs).1) :
    y ∈ (processEntityGroups pref fb egs).1 := by
  induction egs with
  | nil => simp at he
  | cons eg rest ih =>
    unfold processEntityGroups
    rcases List.mem_cons.mp he with heq | he
    · apply List.mem_append_left
      have h2 : eg.2 = sgs := (Prod.mk.injEq .. ▸ heq.symm).2
      rw [h2]
      exact hy
    · exact List.mem_append_right _ (ih he)

/-- C6: on the group `['/en/a', '/de/a', '/fr/a']` with preference
`['de', 'en']`, lang-dedup keeps `/de/a` as canonical and rejects the
other two with reason `language_duplicate` and a pointer to the kept
URL; and every slug group with exactly one member is kept
unconditionally. -/
theorem C6_lang_dedup_canonical :
    ((langDedupExecute
        [⟨strOf "https://x.com/en/a", strOf "e1", strOf "sitemap", none, none⟩,
         ⟨strOf "https://x.com/de/a", strOf "e1", strOf "sitemap", none, none⟩,
         ⟨strOf "https://x.com/fr/a", strOf "e1", strOf "sitemap", none, none⟩]
        [strOf "de", strOf "en"] (strOf "first_found")).valid =
      [⟨⟨strOf "https://x.com/de/a", strOf "e1", strOf "sitemap", none, none⟩,
        some (strOf "de"), strOf "/a"⟩] ∧
     (langDedupExecute
        [⟨strOf "https://x.com/en/a", strOf "e1", strOf "sitemap", none, none⟩,
         ⟨strOf "https://x.com/de/a", strOf "e1", strOf "sitemap", none, none⟩,
         ⟨strOf "https://x.com/fr/a", strOf "e1", strOf "sitemap", none, none⟩]
        [strOf "de", strOf "en"] (strOf "first_found")).invalid =
      [⟨⟨⟨strOf "https://x.com/en/a", strOf "e1", strOf "sitemap", none, none⟩,
          some (strOf "en"), strOf "/a"⟩, strOf "language_duplicate",
          strOf "Translation of https://x.com/de/a (de)"⟩,
       ⟨⟨⟨strOf "https://x.com/fr/a", strOf "e1", strOf "sitemap", none, none⟩,
          some (strOf "fr"), strOf "/a"⟩, strOf "language_duplicate",
          strOf "Translation of https://x.com/de/a (de)"⟩]) ∧
    (∀ (urls : List UrlRecord) (pref : List Str) (fb : Str)
        (e : Str) (sgs : SlugGroups) (s : Str) (x : LangRecord),
      (e, sgs) ∈ buildGroups urls → (s, [x]) ∈ sgs →
      x ∈ (langDedupExecute urls pref fb).valid) := by
  constructor
  · constructor
    · decide
    · decide
  · intro urls pref fb e sgs s x he hg
    exact processEntityGroups_mem_of he
      (processSlugGroups_mem_of hg (by
        show x ∈ ([x] : List LangRecord)
        simp))

/-- Witness for C6's universal singleton clause: a lone `/fr/a` record
forms a singleton slug group and is kept. -/
theorem C6_witness :
    (⟨strOf "e1", [(strOf "/a",
        [⟨⟨strOf "https://x.com/fr/a", strOf "e1", strOf "sitemap", none, none⟩,
          some (strOf "fr"), strOf "/a"⟩])]⟩ : Str × SlugGroups) ∈
      buildGroups [⟨strOf "https://x.com/fr/a", strOf "e1", strOf "sitemap", none, none⟩] ∧
    (⟨⟨strOf "https://x.com/fr/a", strOf "e1", strOf "sitemap", none, none⟩,
        some (strOf "fr"), strOf "/a"⟩ : LangRecord) ∈
      (langDedupExecute
        [⟨strOf "https://x.com/fr/a", strOf "e1", strOf "sitemap", none, none⟩]
        defaultLanguagePreference (strOf "first_found")).valid := by
  refine ⟨by decide, ?_⟩
  exact C6_lang_dedup_canonical.2
    [⟨strOf "https://x.com/fr/a", strOf "e1", strOf "sitemap", none, none⟩]
    defaultLanguagePreference (strOf "first_found") (strOf "e1")
    [(strOf "/a",
      [⟨⟨strOf "https://x.com/fr/a", strOf "e1", strOf "sitemap", none, none⟩,
        some (strOf "fr"), strOf "/a"⟩])]
    (strOf "/a")
    ⟨⟨strOf "https://x.com/fr/a", strOf "e1", strOf "sitemap", none, none⟩,
      some (strOf "fr"), strOf "/a"⟩
    (by decide) (by decide)

/-- C5 counterexample: `dedupe.normalizeUrl` strips only one trailing
slash per application, so on `https://example.com/a//` a second
application strips again and the result differs. -/
theorem C5_normalizeUrl_not_idempotent :
    normalizeUrl (normalizeUrl (strOf "https://example.com/a//")) ≠
      normalizeUrl (strOf "https://example.com/a//") := by decide

/-- C5 (amended): `dedupe.normalizeUrl` is idempotent on every URL that
parses with a pathname not ending in a double slash (the unamended
claim fails exactly on trailing `//`, which the single
`slice(0, -1)` strips one character at a time). -/
theorem C5_normalizeUrl_idempotent_amended (s : Str) (u : ParsedUrl)
    (hparse : parseUrl s = some u)
    (hpend : ¬ strEndsWith u.pathname (strOf "//") = true) :
    normalizeUrl (normalizeUrl s) = normalizeUrl s :=
  normalizeUrl_idem_of_parse hparse hpend

/-- Witness for the amended C5 on a URL with mixed-case host, trailing
slash, tracking and unsorted query parameters. -/
theorem C5_witness :
    normalizeUrl (normalizeUrl (strOf "https://Example.com/a/?b=2&utm_source=x&a=1")) =
      normalizeUrl (strOf "https://Example.com/a/?b=2&utm_source=x&a=1") :=
  C5_normalizeUrl_idempotent_amended
    (strOf "https://Example.com/a/?b=2&utm_source=x&a=1")
    ⟨strOf "https:", strOf "example.com", strOf "/a/",
      [(strOf "b", strOf "2"), (strOf "utm_source", strOf "x"),
       (strOf "a", strOf "1")]⟩
    (by decide) (by decide)

/-- C4 counterexample: on a 403 + "captcha" direct response whose first
browser attempt throws, the generic catch makes a second browser
attempt, so the engine returns a result after two browser attempts,
not exactly one. -/
theorem C4_counterexample :
    (fetchWithFallback
      (.ok ⟨403, strOf "a captcha page", strOf "https://x.com"⟩)
      (fun n => if n = 0 then .error (strOf "browser crash")
        else .ok ⟨strOf "content", 200, strOf "https://x.com"⟩)) =
    (.ok ⟨strOf "content", 200, strOf "https://x.com", true⟩, 2) := by rfl

/-- C4 (amended): on a 403 response whose body contains "captcha", the
engine attempts the browser path at least once and at most twice
before returning; it attempts it exactly once when the first browser
attempt returns normally; and every result it returns has
`usedBrowser = true`. -/
theorem C4_fallback_browser_amended
    (resp : FetchResponse) (browser : Nat → Except Str BrowserPage)
    (hstatus : resp.status = 403)
    (hbody : strIncludes (lowerStr resp.body) (strOf "captcha") = true) :
    (1 ≤ (fetchWithFallback (.ok resp) browser).2 ∧
      (fetchWithFallback (.ok resp) browser).2 ≤ 2) ∧
    (∀ p, browser 0 = .ok p → (fetchWithFallback (.ok resp) browser).2 = 1) ∧
    (∀ r, (fetchWithFallback (.ok resp) browser).1 = .ok r → r.usedBrowser = true) := by
  have hb : isBlocked resp = true := by
    unfold isBlocked
    simp [hstatus]
  simp only [fetchWithFallback, hb, if_true]
  cases h0 : fetchWithBrowser (browser 0) with
  | ok r0 =>
    refine ⟨⟨by simp, by simp⟩, fun p hp => rfl, fun r hr => ?_⟩
    simp only [Except.ok.injEq] at hr
    subst hr
    unfold fetchWithBrowser at h0
    cases hp : browser 0 with
    | ok p =>
      rw [hp] at h0
      simp only [Except.map] at h0
      cases h0
      rfl
    | error e =>
      rw [hp] at h0
      simp [Except.map] at h0
  | error e0 =>
    refine ⟨⟨by simp, by simp⟩, fun p hp => ?_, fun r hr => ?_⟩
    · unfold fetchWithBrowser at h0
      rw [hp] at h0
      simp [Except.map] at h0
    · simp only at hr
      unfold fetchWithBrowser at hr
      cases hp : browser 1 with
      | ok p =>
        rw [hp] at hr
        simp only [Except.map, Except.ok.injEq] at hr
        subst hr
        rfl
      | error e =>
        rw [hp] at hr
        simp [Except.map] at hr

/-- Witness for the amended C4: concrete 403 + captcha response with a
browser that succeeds on its first attempt. -/
theorem C4_witness :
    (1 ≤ (fetchWithFallback
        (.ok ⟨403, strOf "a captcha page", strOf "https://x.com"⟩)
        (fun _ => .ok ⟨strOf "content", 200, strOf "https://x.com"⟩)).2 ∧
      (fetchWithFallback
        (.ok ⟨403, strOf "a captcha page", strOf "https://x.com"⟩)
        (fun _ => .ok ⟨strOf "content", 200, strOf "https://x.com"⟩)).2 ≤ 2) ∧
    (∀ p, (fun _ => (.ok ⟨strOf "content", 200, strOf "https://x.com"⟩ :
        Except Str BrowserPage)) 0 = .ok p →
      (fetchWithFallback
        (.ok ⟨403, strOf "a captcha page", strOf "https://x.com"⟩)
        (fun _ => .ok ⟨strOf "content", 200, strOf "https://x.com"⟩)).2 = 1) ∧
    (∀ r, (fetchWithFallback
        (.ok ⟨403, strOf "a captcha page", strOf "https://x.com"⟩)
        (fun _ => .ok ⟨strOf "content", 200, strOf "https://x.com"⟩)).1 = .ok r →
      r.usedBrowser = true) :=
  C4_fallback_browser_amended
    ⟨403, strOf "a captcha page", strOf "https://x.com"⟩
    (fun _ => .ok ⟨strOf "content", 200, strOf "https://x.com"⟩)
    rfl (by decide)

/-- C2 counterexample: deciding the last pending row through the
single-result PATCH route leaves the run-level status untouched, so a
run stays `completed` although its pending-count has dropped to
zero. -/
theorem C2_counterexample :
    (summarize (((patchResultRoute
        [⟨strOf "r1", strOf "sub1", 0, none, none, none, strOf "pending", none, none⟩]
        ⟨strOf "sub1", strOf "run1", strOf "validation", strOf "dedupe",
          strOf "completed", none, none, [], [], none⟩
        (strOf "r1") (strOf "approve") none (strOf "t1")).2.1).filter
        fun r => r.submodule_run_id = strOf "sub1")).pending = 0 ∧
    (patchResultRoute
        [⟨strOf "r1", strOf "sub1", 0, none, none, none, strOf "pending", none, none⟩]
        ⟨strOf "sub1", strOf "run1", strOf "validation", strOf "dedupe",
          strOf "completed", none, none, [], [], none⟩
        (strOf "r1") (strOf "approve") none (strOf "t1")).2.2.status ≠
      strOf "approved" := by
  constructor
  · decide
  · decide

/-- C2 (amended): only the batch-approval operation derives the
run-level status from the rows — `approved` exactly when no row of the
run is pending, `partial` otherwise; the single-result PATCH operation
updates the row but leaves the run-level record unchanged. -/
theorem C2_run_status_derivation_amended
    (subRun : SubRunRec) (rows : List ApprovalRow)
    (decisions : List BatchDecision) (approvalId action : Str)
    (reason : Option Str) (now now2 : Str)
    (hne : decisions ≠ [])
    (hvalid : ∀ d ∈ decisions,
      d.result_id ≠ [] ∧ (d.action = strOf "approve" ∨ d.action = strOf "reject")) :
    ((batchApprovalRoute subRun rows decisions now).2.2.status =
      if (summarize (((batchApprovalRoute subRun rows decisions now).2.1).filter
          fun r => r.submodule_run_id = subRun.id)).pending = 0
        then strOf "approved" else strOf "partial") ∧
    (patchResultRoute rows subRun approvalId action reason now2).2.2 = subRun := by
  constructor
  · unfold batchApprovalRoute
    rw [if_neg hne]
    rw [if_neg (by
      intro hbad
      rw [List.any_eq_true] at hbad
      obtain ⟨d, hd, hb⟩ := hbad
      rcases hvalid d hd with ⟨h1, h2⟩
      rcases (by simpa using hb : d.result_id = [] ∨
          ¬ (d.action = strOf "approve" ∨ d.action = strOf "reject")) with hb2 | hb2
      · exact h1 hb2
      · exact hb2 h2)]
  · unfold patchResultRoute
    split
    · rfl
    · split <;> first
        | rfl
        | (split <;> rfl)

/-- Witness for the amended C2: a one-row run whose only pending row is
batch-approved becomes `approved`, and a PATCH on the same data leaves
the run record unchanged. -/
theorem C2_witness :
    ((batchApprovalRoute
        ⟨strOf "sub1", strOf "run1", strOf "validation", strOf "dedupe",
          strOf "completed", none, none, [], [], none⟩
        [⟨strOf "r1", strOf "sub1", 0, none, none, none, strOf "pending", none, none⟩]
        [⟨strOf "r1", strOf "approve", none⟩] (strOf "t1")).2.2.status =
      if (summarize (((batchApprovalRoute
          ⟨strOf "sub1", strOf "run1", strOf "validation", strOf "dedupe",
            strOf "completed", none, none, [], [], none⟩
          [⟨strOf "r1", strOf "sub1", 0, none, none, none, strOf "pending", none, none⟩]
          [⟨strOf "r1", strOf "approve", none⟩] (strOf "t1")).2.1).filter
          fun r => r.submodule_run_id = strOf "sub1")).pending = 0
        then strOf "approved" else strOf "partial") ∧
    (patchResultRoute
        [⟨strOf "r1", strOf "sub1", 0, none, none, none, strOf "pending", none, none⟩]
        ⟨strOf "sub1", strOf "run1", strOf "validation", strOf "dedupe",
          strOf "completed", none, none, [], [], none⟩
        (strOf "r1") (strOf "reject") none (strOf "t2")).2.2 =
      ⟨strOf "sub1", strOf "run1", strOf "validation", strOf "dedupe",
        strOf "completed", none, none, [], [], none⟩ :=
  C2_run_status_derivation_amended
    ⟨strOf "sub1", strOf "run1", strOf "validation", strOf "dedupe",
      strOf "completed", none, none, [], [], none⟩
    [⟨strOf "r1", strOf "sub1", 0, none, none, none, strOf "pending", none, none⟩]
    [⟨strOf "r1", strOf "approve", none⟩]
    (strOf "r1") (strOf "reject") none (strOf "t1") (strOf "t2")
    (by decide)
    (by decide)

/-- **C3.** Re-invoking approve on an already-`approved` run is a no-op
success: the idempotency guard answers with `already_approved = true`
and `urls_saved` equal to the stored `approved_count` (0 when absent),
and neither the `submodule_runs` record nor the `discovered_urls` table
is written. -/
theorem C3_approve_idempotent (subRun : SubRunRec)
    (sel : Option (List Str)) (runEntities : List (Str × Option Str))
    (discovered : List DiscoveredUrl) (now : Str)
    (h : subRun.status = strOf "approved") :
    approveRoute subRun sel runEntities discovered now =
      (⟨true, subRun.approved_count.getD 0, true⟩, subRun, discovered) := by
  unfold approveRoute
  rw [if_pos h]

/-- C3 at a concrete already-approved run with stored count 5. -/
theorem C3_witness :
    (⟨strOf "sub1", strOf "run1", strOf "discovery", strOf "sitemap",
      strOf "approved", some 5, none,
      [⟨strOf "https://a.example/x", none, none, none⟩], [strOf "re1"],
      some (strOf "t0")⟩ : SubRunRec).status = strOf "approved" ∧
    approveRoute
      ⟨strOf "sub1", strOf "run1", strOf "discovery", strOf "sitemap",
        strOf "approved", some 5, none,
        [⟨strOf "https://a.example/x", none, none, none⟩], [strOf "re1"],
        some (strOf "t0")⟩
      none [] [] (strOf "t1") =
      (⟨true, 5, true⟩,
       ⟨strOf "sub1", strOf "run1", strOf "discovery", strOf "sitemap",
        strOf "approved", some 5, none,
        [⟨strOf "https://a.example/x", none, none, none⟩], [strOf "re1"],
        some (strOf "t0")⟩, []) :=
  ⟨rfl,
   C3_approve_idempotent
     ⟨strOf "sub1", strOf "run1", strOf "discovery", strOf "sitemap",
       strOf "approved", some 5, none,
       [⟨strOf "https://a.example/x", none, none, none⟩], [strOf "re1"],
       some (strOf "t0")⟩
     none [] [] (strOf "t1") rfl⟩

/-- **C10.** Approving a not-yet-approved run whose stored results array
is empty succeeds: the response is `{approved: true, urls_saved: 0}`
(not the idempotent path), the run is marked `approved` with
`approved_count = 0`, no `discovered_urls` rows are written, and an
empty result set yields zero approval records. -/
theorem C10_approve_empty_results (subRun : SubRunRec)
    (sel : Option (List Str)) (runEntities : List (Str × Option Str))
    (discovered : List DiscoveredUrl) (now : Str)
    (h1 : subRun.status ≠ strOf "approved") (h2 : subRun.results = []) :
    approveRoute subRun sel runEntities discovered now =
      (⟨true, 0, false⟩,
       { subRun with
          status := strOf "approved"
          approved_at := some now
          approved_count := some 0 }, discovered) ∧
    createApprovalRecords subRun.id subRun.results now = [] := by
  have hsave : ∀ s : Option (List Str),
      (match s with
       | some sel' =>
         if sel' ≠ [] then subRun.results.filter fun r => sel'.contains r.url
         else subRun.results
       | none => subRun.results) = [] := by
    intro s
    rw [h2]
    cases s with
    | none => rfl
    | some sel' => cases sel' <;> rfl
  constructor
  · unfold approveRoute
    rw [if_neg h1]
    simp only [hsave sel]
    rw [if_neg (by simp)]
    rfl
  · rw [h2]; rfl

/-- C10 at a concrete completed run with no results. -/
theorem C10_witness :
    ((⟨strOf "sub2", strOf "run1", strOf "discovery", strOf "sitemap",
       strOf "completed", none, none, [], [strOf "re1"], none⟩ :
        SubRunRec).status ≠ strOf "approved" ∧
     (⟨strOf "sub2", strOf "run1", strOf "discovery", strOf "sitemap",
       strOf "completed", none, none, [], [strOf "re1"], none⟩ :
        SubRunRec).results = []) ∧
    (approveRoute
       ⟨strOf "sub2", strOf "run1", strOf "discovery", strOf "sitemap",
        strOf "completed", none, none, [], [strOf "re1"], none⟩
       none [] [⟨strOf "re9", strOf "https://b.example/", strOf "sitemap",
                 0, strOf "pending", strOf "t0"⟩] (strOf "t1") =
      (⟨true, 0, false⟩,
       ⟨strOf "sub2", strOf "run1", strOf "discovery", strOf "sitemap",
        strOf "approved", some 0, none, [], [strOf "re1"], some (strOf "t1")⟩,
       [⟨strOf "re9", strOf "https://b.example/", strOf "sitemap",
         0, strOf "pending", strOf "t0"⟩]) ∧
     createApprovalRecords (strOf "sub2") [] (strOf "t1") = []) :=
  ⟨⟨by decide, rfl⟩,
   C10_approve_empty_results
     ⟨strOf "sub2", strOf "run1", strOf "discovery", strOf "sitemap",
      strOf "completed", none, none, [], [strOf "re1"], none⟩
     none [] [⟨strOf "re9", strOf "https://b.example/", strOf "sitemap",
               0, strOf "pending", strOf "t0"⟩] (strOf "t1")
     (by decide) rfl⟩

/-- **C7 (counterexample).** A request with an explicit nonempty
`entities` array and no `project_id` — but with a `run_id` in the body —
takes the preview branch (`preview_mode: true` in the response) yet
persists: the handler never clears the body's `run_id`, so the
persistence guard fires and a `submodule_runs` row plus its approval
rows are written. -/
theorem C7_counterexample :
    (executeRoute
       ⟨some (strOf "r1"), none,
        some [⟨some (strOf "e1"), some (strOf "Ent"), none, none⟩], none⟩
       (strOf "discovery") (strOf "sitemap")
       (.ok [⟨strOf "https://a.example/", none, none, none⟩])
       ⟨strOf "nr", [], strOf "sub9", strOf "t0"⟩
       ⟨[], [], [], []⟩).1 =
      .ok true (strOf "completed") 1 (strOf "sub9") ∧
    (executeRoute
       ⟨some (strOf "r1"), none,
        some [⟨some (strOf "e1"), some (strOf "Ent"), none, none⟩], none⟩
       (strOf "discovery") (strOf "sitemap")
       (.ok [⟨strOf "https://a.example/", none, none, none⟩])
       ⟨strOf "nr", [], strOf "sub9", strOf "t0"⟩
       ⟨[], [], [], []⟩).2.submodule_runs.length = 1 ∧
    (executeRoute
       ⟨some (strOf "r1"), none,
        some [⟨some (strOf "e1"), some (strOf "Ent"), none, none⟩], none⟩
       (strOf "discovery") (strOf "sitemap")
       (.ok [⟨strOf "https://a.example/", none, none, none⟩])
       ⟨strOf "nr", [], strOf "sub9", strOf "t0"⟩
       ⟨[], [], [], []⟩).2.approvals.length = 1 :=
  ⟨rfl, rfl, rfl⟩

/-- **C7 (amended).** When the request supplies a nonempty `entities`
array, no `project_id` **and no `run_id`**, the execute route persists
nothing (the datastore is returned unchanged) and every successful
response carries `preview_mode = true`. -/
theorem C7_preview_no_persist_amended (req : ExecReq) (stype sname : Str)
    (outcome : Except Str (List ResultItem)) (ids : ExecIds) (db : Db)
    (h1 : req.project_id = none) (h2 : req.run_id = none)
    (h3 : ∃ e es, req.entities = some (e :: es)) :
    (executeRoute req stype sname outcome ids db).2 = db ∧
    ((executeRoute req stype sname outcome ids db).1 = .serverError ∨
     ∃ st n, (executeRoute req stype sname outcome ids db).1 =
       .ok true st n ids.submoduleRunId) := by
  obtain ⟨e, es, h3⟩ := h3
  cases hthrow : mode2Throws (e :: es) with
  | true =>
    refine ⟨?_, Or.inl ?_⟩ <;>
      simp [executeRoute, h1, h2, h3, hthrow]
  | false =>
    refine ⟨?_, Or.inr ?_⟩
    · cases outcome <;> simp [executeRoute, h1, h2, h3, hthrow]
    · cases outcome with
      | ok rs =>
        exact ⟨strOf "completed", rs.length,
          by simp [executeRoute, h1, h2, h3, hthrow]⟩
      | error m =>
        exact ⟨strOf "failed", 0,
          by simp [executeRoute, h1, h2, h3, hthrow]⟩

/-- Amended C7 at a concrete preview request (entities, no project, no
run identifier): the datastore comes back untouched and the response is
a preview-mode success. -/
theorem C7_witness :
    ((⟨none, none,
       some [⟨some (strOf "e1"), some (strOf "Ent"), none, none⟩], none⟩ :
         ExecReq).project_id = none ∧
     (⟨none, none,
       some [⟨some (strOf "e1"), some (strOf "Ent"), none, none⟩], none⟩ :
         ExecReq).run_id = none) ∧
    ((executeRoute
       ⟨none, none,
        some [⟨some (strOf "e1"), some (strOf "Ent"), none, none⟩], none⟩
       (strOf "discovery") (strOf "sitemap")
       (.ok [⟨strOf "https://a.example/", none, none, none⟩])
       ⟨strOf "nr", [], strOf "sub9", strOf "t0"⟩
       ⟨[], [], [], []⟩).2 = ⟨[], [], [], []⟩ ∧
     ((executeRoute
        ⟨none, none,
         some [⟨some (strOf "e1"), some (strOf "Ent"), none, none⟩], none⟩
        (strOf "discovery") (strOf "sitemap")
        (.ok [⟨strOf "https://a.example/", none, none, none⟩])
        ⟨strOf "nr", [], strOf "sub9", strOf "t0"⟩
        ⟨[], [], [], []⟩).1 = .serverError ∨
      ∃ st n, (executeRoute
        ⟨none, none,
         some [⟨some (strOf "e1"), some (strOf "Ent"), none, none⟩], none⟩
        (strOf "discovery") (strOf "sitemap")
        (.ok [⟨strOf "https://a.example/", none, none, none⟩])
        ⟨strOf "nr", [], strOf "sub9", strOf "t0"⟩
        ⟨[], [], [], []⟩).1 =
        .ok true st n (⟨strOf "nr", [], strOf "sub9", strOf "t0"⟩ :
          ExecIds).submoduleRunId)) :=
  ⟨⟨rfl, rfl⟩,
   C7_preview_no_persist_amended
     ⟨none, none,
      some [⟨some (strOf "e1"), some (strOf "Ent"), none, none⟩], none⟩
     (strOf "discovery") (strOf "sitemap")
     (.ok [⟨strOf "https://a.example/", none, none, none⟩])
     ⟨strOf "nr", [], strOf "sub9", strOf "t0"⟩
     ⟨[], [], [], []⟩
     rfl rfl
     ⟨⟨some (strOf "e1"), some (strOf "Ent"), none, none⟩, [], rfl⟩⟩

/-- Every link collected by the navigation loop is the resolver's output
on one of the input hrefs: discarded links never reach the output. -/
theorem navLoop_mem (domain : Str) (maxUrls : Nat) :
    ∀ (hs : List (Str × Str)) (seen : List Str) (count : Nat) (l : NavLink),
      l ∈ navLoop domain maxUrls hs seen count →
      ∃ h a, (h, a) ∈ hs ∧
        navResolveUrl h (strOf "https://" ++ domain) domain = some l.url := by
  intro hs
  induction hs with
  | nil => intro seen count l hl; cases hl
  | cons p rest ih =>
    intro seen count l hl
    obtain ⟨href, area⟩ := p
    unfold navLoop at hl
    by_cases hcap : count ≥ maxUrls
    · rw [if_pos hcap] at hl; cases hl
    · rw [if_neg hcap] at hl
      cases hv : navResolveUrl href (strOf "https://" ++ domain) domain with
      | none =>
        simp only [hv] at hl
        obtain ⟨h, a, hmem, hres⟩ := ih seen count l hl
        exact ⟨h, a, List.mem_cons_of_mem _ hmem, hres⟩
      | some resolved =>
        simp only [hv] at hl
        by_cases hseen : seen.contains resolved = true
        · rw [if_pos hseen] at hl
          obtain ⟨h, a, hmem, hres⟩ := ih seen count l hl
          exact ⟨h, a, List.mem_cons_of_mem _ hmem, hres⟩
        · rw [if_neg hseen] at hl
          cases hl with
          | head => exact ⟨href, area, List.mem_cons_self _ _, hv⟩
          | tail _ htl =>
            obtain ⟨h, a, hmem, hres⟩ := ih _ _ l htl
            exact ⟨h, a, List.mem_cons_of_mem _ hmem, hres⟩

/-- **C8 (counterexample).** The resolver's off-domain test is the raw
string suffix check `hostname.endsWith(domain) || domain.endsWith(hostname)`:
for the entity domain `example.com` it keeps `https://evilexample.com/x`,
whose host is *not* subdomain-compatible with the domain in the spec's
sense. -/
theorem C8_counterexample :
    navResolveUrl (strOf "https://evilexample.com/x")
      (strOf "https://example.com") (strOf "example.com") =
      some (strOf "https://evilexample.com/x") ∧
    subdomainCompatible (strOf "evilexample.com") (strOf "example.com") = false :=
  ⟨rfl, by decide⟩

/-- **C8 (amended).** The navigation resolver discards same-page anchors
and the `javascript:`/`mailto:`/`tel:` schemes; every href it keeps
resolves to a host passing the raw suffix test against the entity
domain (a weaker condition than subdomain compatibility) and is emitted
as the resolved URL; and every link in the submodule's output is the
resolver's output on one of the extracted hrefs, so discarded links
never appear in the output. -/
theorem C8_nav_resolver_amended (href base domain : Str)
    (hrefs : List (Str × Str)) (maxUrls : Nat) :
    ((strStartsWith href (strOf "#") ∨ strStartsWith href (strOf "javascript:") ∨
      strStartsWith href (strOf "mailto:") ∨ strStartsWith href (strOf "tel:")) →
      navResolveUrl href base domain = none) ∧
    (∀ out, navResolveUrl href base domain = some out →
      ∃ r, resolveHref href base = some r ∧
        (strEndsWith r.host domain = true ∨ strEndsWith domain r.host = true) ∧
        out = serializeUrl r) ∧
    (∀ l ∈ extractNavLinks hrefs domain maxUrls,
      ∃ h a, (h, a) ∈ hrefs ∧
        navResolveUrl h (strOf "https://" ++ domain) domain = some l.url) := by
  refine ⟨?_, ?_, ?_⟩
  · intro hskip
    unfold navResolveUrl
    by_cases h0 : href = []
    · rw [if_pos h0]
    · rw [if_neg h0, if_pos hskip]
  · intro out hout
    unfold navResolveUrl at hout
    by_cases h0 : href = []
    · rw [if_pos h0] at hout; cases hout
    · rw [if_neg h0] at hout
      by_cases h1 : (strStartsWith href (strOf "#") ∨
          strStartsWith href (strOf "javascript:") ∨
          strStartsWith href (strOf "mailto:") ∨
          strStartsWith href (strOf "tel:"))
      · rw [if_pos h1] at hout; cases hout
      · rw [if_neg h1] at hout
        cases hv : resolveHref href base with
        | none => rw [hv] at hout; cases hout
        | some r =>
          simp only [hv] at hout
          by_cases hc1 : (¬ strEndsWith r.host domain = true ∧
              ¬ strEndsWith domain r.host = true)
          · rw [if_pos hc1] at hout; cases hout
          · rw [if_neg hc1] at hout
            refine ⟨r, rfl, ?_, ?_⟩
            · by_cases ha : strEndsWith r.host domain = true
              · exact Or.inl ha
              · by_cases hb : strEndsWith domain r.host = true
                · exact Or.inr hb
                · exact absurd ⟨ha, hb⟩ hc1
            · by_cases hc2 : (navSkipPaths.any fun p =>
                  strStartsWith (lowerStr r.pathname) p) = true
              · rw [if_pos hc2] at hout; cases hout
              · rw [if_neg hc2] at hout
                by_cases hc3 : (navSkipExts.any fun e =>
                    strEndsWith (lowerStr r.pathname) e) = true
                · rw [if_pos hc3] at hout; cases hout
                · rw [if_neg hc3] at hout
                  exact (Option.some.inj hout).symm
  · intro l hl
    exact navLoop_mem domain maxUrls hrefs [] 0 l hl

/-- Amended C8 at concrete inputs: an anchor href is discarded, a kept
subdomain link passes the suffix test and is emitted resolved, and the
one link in a concrete output traces back to its input href. -/
theorem C8_witness :
    navResolveUrl (strOf "#top") (strOf "https://example.com")
      (strOf "example.com") = none ∧
    (∃ r, resolveHref (strOf "https://sub.example.com/about")
        (strOf "https://example.com") = some r ∧
      (strEndsWith r.host (strOf "example.com") = true ∨
       strEndsWith (strOf "example.com") r.host = true) ∧
      strOf "https://sub.example.com/about" = serializeUrl r) ∧
    (∃ h a, (h, a) ∈ [(strOf "/about", strOf "nav")] ∧
      navResolveUrl h (strOf "https://" ++ strOf "example.com")
        (strOf "example.com") =
        some (⟨strOf "https://example.com/about", strOf "nav"⟩ : NavLink).url) :=
  ⟨(C8_nav_resolver_amended (strOf "#top") (strOf "https://example.com")
      (strOf "example.com") [] 0).1 (Or.inl (by decide)),
   (C8_nav_resolver_amended (strOf "https://sub.example.com/about")
      (strOf "https://example.com") (strOf "example.com") [] 0).2.1
     (strOf "https://sub.example.com/about") rfl,
   (C8_nav_resolver_amended (strOf "/about") (strOf "https://example.com")
      (strOf "example.com") [(strOf "/about", strOf "nav")] 10).2.2
     ⟨strOf "https://example.com/about", strOf "nav"⟩ (by decide)⟩
